import Mathlib

/-!
Verification development for the nomutore history-recalculation and
period-archiving engine (src/service.js).

The engine's own logic (`Service.recalcImpactedHistory`, `Service.archiveAndReset`,
`Service.checkPeriodRollover`, `Service.updatePeriodSettings`,
`Service.calculatePeriodStart`, `getStartOfWeek`, `_deduplicateChecks`) is embedded
below as executable Lean functions, translated statement by statement from
src/service.js.  External collaborators that are not part of the source tree
(the `Calc` oracle and `getVirtualDate` from logic.js, the `EXERCISE` /
`STYLE_SPECS` tables from constants.js, and the dayjs calendar library) are
modelled from the spec as opaque parameters bundled in `Oracle` and `Cal`.

Conventions:
* machine timestamps are `Int` epoch milliseconds; day buckets are `Int` day
  indices (`t / 86400000`, floor division — Lean's `Int` `/` is Euclidean
  division, which floors for the positive constant divisors used here);
* JavaScript numbers that the engine compares against the 0.1 epsilon are
  modelled as `ℚ`;
* the dayjs local timezone is modelled as UTC (a fixed offset does not affect
  any claim below);
* fallible lookups (`localStorage.getItem`, optional record fields) are
  `Option`.
-/

namespace Nomutore

/-- Milliseconds per day. -/
def msPerDay : Int := 86400000

/-- Milliseconds per hour. -/
def msPerHour : Int := 3600000

/-- Modelled from the spec: `getVirtualDate` (logic.js, not in src/).  The
accounting day boundary is offset several hours past midnight ("e.g., 4 AM"),
so instants between midnight and the boundary belong to the previous calendar
day.  We model the day key as an integer day index rather than a
`YYYY-MM-DD` string. -/
def getVirtualDate (t : Int) : Int := (t - 4 * msPerHour) / msPerDay

/-- Calendar day index of an instant: the bucket produced by
`dayjs(t).format('YYYY-MM-DD')` / `dayjs(t).startOf('day')` (raw calendar
date, midnight boundary). -/
def calendarDay (t : Int) : Int := t / msPerDay

/-- `dayjs(t).startOf('day').valueOf()`. -/
def startOfDay (t : Int) : Int := msPerDay * calendarDay t

/-- `dayjs(t).endOf('day').valueOf()` (last millisecond of the calendar day). -/
def endOfDay (t : Int) : Int := startOfDay t + msPerDay - 1

/-- `dayjs(t).day()`: 0 = Sunday … 6 = Saturday.  Epoch day 0 (1970-01-01)
was a Thursday, hence the +4. -/
def dayOfWeek (t : Int) : Int := (calendarDay t + 4) % 7

/-- service.js lines 7-11: Monday-based start of week.
`const day = d.day() || 7; return d.subtract(day - 1, 'day').startOf('day')`. -/
def getStartOfWeek (t : Int) : Int :=
  let day := if dayOfWeek t = 0 then 7 else dayOfWeek t
  startOfDay (t - (day - 1) * msPerDay)

/-- The `type` field of a log entry: `'beer' | 'exercise'`. -/
inductive LogType where
  | beer
  | exercise
deriving DecidableEq

/-- An EXERCISE memo, abstracting the string manipulation of service.js lines
209-213: `base` is the memo text with every `Streak Bonus x…` marker stripped
and trimmed, `bonus` is the multiplier of the single trailing marker, if any
(the code renders it with `toFixed(1)`; we keep the rational). -/
structure Memo where
  base : String
  bonus : Option ℚ
deriving DecidableEq

/-- A row of the `logs` table.  Fields the engine never reads
(brand, brewery, rating, …) are omitted. -/
structure LogEntry where
  id : Nat
  timestamp : Int
  type : LogType
  kcal : Option ℚ
  exerciseKey : String
  minutes : ℚ
  memo : Option Memo
  size : Option Int
  abv : Option ℚ
  style : String
  count : Option Int
deriving DecidableEq

/-- A row of the `checks` table (wellness flags and weight omitted: the
embedded operations never read them). -/
structure CheckEntry where
  id : Nat
  timestamp : Int
  isDryDay : Bool
  isSaved : Bool
deriving DecidableEq

/-- A row of the `period_archives` table. -/
structure PeriodArchive where
  id : Nat
  startDate : Int
  endDate : Int
  mode : String
  totalBalance : ℚ
  logs : List LogEntry
  createdAt : Int
  updatedAt : Option Int
deriving DecidableEq

/-- The three Dexie tables locked by the engine's transactions. -/
structure DB where
  logs : List LogEntry
  checks : List CheckEntry
  archives : List PeriodArchive
deriving DecidableEq

/-- The localStorage keys the archive manager reads and writes.
`none` models a missing or unparseable (NaN) stored value. -/
structure Settings where
  periodMode : Option String
  periodStart : Option Int
  periodEndDate : Option Int
  customLabel : Option String
deriving DecidableEq

/-- Modelled from the spec: the read-only profile record (store.js
`Store.getProfile`, not in src/), an opaque input to `exerciseBurn`. -/
structure Profile where
  weight : ℚ
  height : ℚ
  age : ℚ
  genderFactor : ℚ
deriving DecidableEq

/-- Per-virtual-day aggregate built by the snapshot scan
(service.js line 138: `{ hasBeer, hasExercise, balance }`). -/
structure DayAgg where
  hasBeer : Bool
  hasExercise : Bool
  balance : ℚ
deriving DecidableEq

/-- Result of `Calc.calculateExerciseCredit`. -/
structure Credit where
  kcal : ℚ
  bonusMultiplier : ℚ
deriving DecidableEq

/-- Modelled from the spec: the external Streak & Bonus Oracle
(logic.js `Calc`, not in src/) and the lookup tables of constants.js.
`mets` bundles `EXERCISE[key]?.mets || 3.0`; `styleCarb` bundles
`STYLE_SPECS[style]?.carb ?? 3.0`.  `qualifies` is the open
per-day streak-qualification predicate consulted on a day's aggregate and
dry-day flag; `credit` is `exerciseCredit(baseKcal, streak)`.  All claims
proved below are universal in this structure. -/
structure Oracle where
  mets : String → ℚ
  exerciseBurn : ℚ → ℚ → Profile → ℚ
  beerDebit : ℚ → ℚ → ℚ → ℚ → ℚ
  styleCarb : String → ℚ
  qualifies : Option DayAgg → Option Bool → Bool
  credit : ℚ → Nat → Credit

/-- Modelled from the spec: the dayjs calendar operations with no simple
arithmetic form (only `startOf('month')` is needed); dayjs is an external
library. -/
structure Cal where
  startOfMonth : Int → Int

/-- service.js lines 144-156: one log's contribution to its day's balance —
the stored `kcal` when present, else the oracle burn (exercise) or the oracle
debit computed from size/abv/style/count with the JS `||` defaults
(`parseInt(l.size) || 350`, `parseFloat(l.abv) || 5.0`, `l.count || 1`). -/
def logContrib (o : Oracle) (p : Profile) (l : LogEntry) : ℚ :=
  match l.kcal with
  | some k => k
  | none =>
    match l.type with
    | LogType.exercise => o.exerciseBurn (o.mets l.exerciseKey) l.minutes p
    | LogType.beer =>
      let ml : Int := match l.size with
        | some v => if v = 0 then 350 else v
        | none => 350
      let abv : ℚ := match l.abv with
        | some v => if v = 0 then 5 else v
        | none => 5
      o.beerDebit (ml : ℚ) abv (o.styleCarb l.style) (cntQ l.count)
where
  /-- `l.count || 1`. -/
  cntQ : Option Int → ℚ
  | some v => if v = 0 then 1 else (v : ℚ)
  | none => 1

/-- All logs bucketed into virtual day `d` (the `logMap` key of line 137). -/
def dayLogs (logs : List LogEntry) (d : Int) : List LogEntry :=
  logs.filter (fun l => decide (getVirtualDate l.timestamp = d))

/-- The `balance` accumulated for day `d` by the scan of lines 134-157. -/
def balanceOf (o : Oracle) (p : Profile) (logs : List LogEntry) (d : Int) : ℚ :=
  ((dayLogs logs d).map (logContrib o p)).sum

/-- The `logMap` of service.js lines 129-157, as a function from day key to
the optional per-day aggregate (an entry exists iff some log fell on the
day). -/
def aggsOf (o : Oracle) (p : Profile) (logs : List LogEntry) (d : Int) : Option DayAgg :=
  if dayLogs logs d = [] then none
  else some
    { hasBeer := (dayLogs logs d).any (fun l => decide (l.type = LogType.beer))
    , hasExercise := (dayLogs logs d).any (fun l => decide (l.type = LogType.exercise))
    , balance := balanceOf o p logs d }

/-- The `checkMap` of lines 159-164: `Map.set` overwrites, so the last check
of a day (in table order) wins. -/
def checkMapAt (checks : List CheckEntry) (d : Int) : Option Bool :=
  ((checks.filter (fun c => decide (getVirtualDate c.timestamp = d))).getLast?).map
    (fun c => c.isDryDay)

/-- service.js lines 131-166: `minTs` over all logs and checks; `firstDate`
is `dayjs(minTs).startOf('day')` when any entry exists (note: the raw
calendar day, not the virtual day), else `dayjs()` (now). -/
def anchorDay (now : Int) (logs : List LogEntry) (checks : List CheckEntry) : Int :=
  match (logs.map (fun l => l.timestamp) ++ checks.map (fun c => c.timestamp)).min? with
  | some m => calendarDay m
  | none => calendarDay now

/-- The `exerciseLogsByDate` index of lines 169-178: the day's exercise logs
in table order. -/
def exIdxOf (logs : List LogEntry) (d : Int) : List LogEntry :=
  logs.filter (fun l =>
    decide (l.type = LogType.exercise) && decide (getVirtualDate l.timestamp = d))

/-- Modelled from the spec: `Calc.getStreakFromMap` (logic.js, not in src/).
Per the spec it returns the length of the qualifying-day streak ending at
`target`, with the anchor as lower bound and the per-day qualification rule an
opaque black box (`Oracle.qualifies`); per the spec's scenario (a retroactive
dry-day on day1 gives day2 streak 1 while day1's own log is untouched) the
streak counts the consecutive qualifying days strictly before `target`.
`streakAux` recurses on the fuel `target - firstDay`. -/
def streakAux (qual : Option DayAgg → Option Bool → Bool)
    (aggs : Int → Option DayAgg) (checkM : Int → Option Bool) :
    Int → Nat → Nat
  | _, 0 => 0
  | target, fuel + 1 =>
    if qual (aggs (target - 1)) (checkM (target - 1)) then
      streakAux qual aggs checkM (target - 1) fuel + 1
    else 0

/-- Modelled from the spec: see `streakAux`. -/
def streakLen (qual : Option DayAgg → Option Bool → Bool)
    (aggs : Int → Option DayAgg) (checkM : Int → Option Bool)
    (firstDay target : Int) : Nat :=
  streakAux qual aggs checkM target (target - firstDay).toNat

/-- The running `logMap` during the forward walk: the initial aggregates plus
the in-place balance corrections of line 224 (`entry.balance += …`),
represented as a per-day delta overlay `corr`. -/
def effAgg (aggs : Int → Option DayAgg) (corr : Int → ℚ) (d : Int) : Option DayAgg :=
  (aggs d).map (fun a => { a with balance := a.balance + corr d })

/-- Mutable state threaded through the forward walk: the current `logs`
table, the balance-correction overlay on the in-memory `logMap`, and
`updateCount`. -/
structure WalkState where
  logs : List LogEntry
  corr : Int → ℚ
  writes : Nat

/-- Base burn recomputed unconditionally at lines 204-205. -/
def baseOf (o : Oracle) (p : Profile) (l : LogEntry) : ℚ :=
  o.exerciseBurn (o.mets l.exerciseKey) l.minutes p

/-- `Calc.calculateExerciseCredit(baseBurn, streak)` at line 206. -/
def credOf (o : Oracle) (p : Profile) (s : Nat) (l : LogEntry) : Credit :=
  o.credit (baseOf o p l) s

/-- Memo regeneration of lines 209-213: strip every bonus marker, then append
a fresh one exactly when the multiplier exceeds 1.0. -/
def regenMemo (m : Memo) (mult : ℚ) : Memo :=
  { base := m.base, bonus := if 1 < mult then some mult else none }

/-- The `newMemo` computed for `l` at streak `s` (a missing memo reads as
`''`, line 209). -/
def newMemoOf (o : Oracle) (p : Profile) (s : Nat) (l : LogEntry) : Memo :=
  regenMemo (l.memo.getD { base := "", bonus := none }) (credOf o p s l).bonusMultiplier

/-- The update guard of line 216:
`Math.abs((log.kcal || 0) - updatedCredit.kcal) > 0.1 || log.memo !== newMemo`. -/
def writeCond (o : Oracle) (p : Profile) (s : Nat) (l : LogEntry) : Bool :=
  decide ((1 : ℚ)/10 < |l.kcal.getD 0 - (credOf o p s l).kcal|)
    || decide (l.memo ≠ some (newMemoOf o p s l))

/-- The value `db.logs.update(log.id, { kcal, memo })` leaves at the row
(lines 217-220). -/
def updatedEntry (o : Oracle) (p : Profile) (s : Nat) (l : LogEntry) : LogEntry :=
  { l with kcal := some (credOf o p s l).kcal, memo := some (newMemoOf o p s l) }

/-- `db.logs.update(id, {kcal, memo})`: rewrite the row(s) with primary key
`id`. -/
def updateLog (logs : List LogEntry) (i : Nat) (k : ℚ) (m : Memo) : List LogEntry :=
  logs.map (fun l => if l.id = i then { l with kcal := some k, memo := some m } else l)

/-- Processing of one exercise log inside the walk (service.js lines
203-228).  `aggs0` is the run's initial `logMap`, `d` the day being walked,
`s` the day's streak. -/
def processLog (o : Oracle) (p : Profile) (aggs0 : Int → Option DayAgg) (d : Int)
    (s : Nat) (st : WalkState) (l : LogEntry) : WalkState :=
  if writeCond o p s l then
    { logs := updateLog st.logs l.id (credOf o p s l).kcal (newMemoOf o p s l)
    , corr :=
        -- line 222-224: `const entry = logMap.get(dateStr); if (entry) entry.balance += …`
        if (aggs0 d).isSome then
          fun e => if e = d then st.corr e + ((credOf o p s l).kcal - l.kcal.getD 0)
                   else st.corr e
        else st.corr
    , writes := st.writes + 1 }
  else st

/-- One iteration of the forward walk (lines 192-230): compute the day's
streak from the running map, then revisit the day's exercise logs. -/
def walkStep (o : Oracle) (p : Profile) (aggs0 : Int → Option DayAgg)
    (checkM : Int → Option Bool) (firstDay : Int) (exIdx : Int → List LogEntry)
    (st : WalkState) (d : Int) : WalkState :=
  let s := streakLen o.qualifies (effAgg aggs0 st.corr) checkM firstDay d
  (exIdx d).foldl (processLog o p aggs0 d s) st

/-- The sequence of day keys the `while` loop of lines 188-230 processes:
from `startDay` while `≤ endDay`, and the body additionally breaks once the
post-incremented `safeGuard` exceeds 3650 — i.e. after 3651 processed
iterations. -/
def walkDays (startDay endDay : Int) : List Int :=
  (List.range (min (endDay - startDay + 1).toNat 3651)).map (fun k => startDay + Int.ofNat k)

/-- Refresh of one archive in the loop of lines 241-257 (the selection
`where('endDate').aboveOrEqual(changedTimestamp)` becomes the guard):
recompute the snapshot from the current logs in `[startDate, endDate]`
(inclusive), its balance, and stamp `updatedAt`. -/
def refreshOne (now t : Int) (logs : List LogEntry) (a : PeriodArchive) : PeriodArchive :=
  if t ≤ a.endDate then
    let periodLogs := logs.filter (fun l =>
      decide (a.startDate ≤ l.timestamp) && decide (l.timestamp ≤ a.endDate))
    { a with totalBalance := (periodLogs.map (fun l => l.kcal.getD 0)).sum
           , logs := periodLogs
           , updatedAt := some now }
  else a

/-- Outcome of one `recalcImpactedHistory` transaction: the committed state,
the number of `db.logs.update` calls (`updateCount`), and the number of
`db.period_archives.update` calls. -/
structure RecalcOut where
  db : DB
  logWrites : Nat
  archiveWrites : Nat
deriving DecidableEq

/-- service.js lines 117-263, `Service.recalcImpactedHistory(changedTimestamp)`:
the whole transaction — snapshot scan, forward walk from the virtual day of
the change to today, then unconditional refresh of every archive whose
`endDate` is at or after the change. -/
def recalcImpactedHistory (o : Oracle) (p : Profile) (now : Int) (st : DB)
    (t : Int) : RecalcOut :=
  let aggs0 := aggsOf o p st.logs
  let checkM := checkMapAt st.checks
  let firstDay := anchorDay now st.logs st.checks
  let exIdx := exIdxOf st.logs
  let startDay := getVirtualDate t
  let endDay := calendarDay now
  let w := (walkDays startDay endDay).foldl
    (walkStep o p aggs0 checkM firstDay exIdx) ⟨st.logs, fun _ => 0, 0⟩
  { db := { logs := w.logs
          , checks := st.checks
          , archives := st.archives.map (refreshOne now t w.logs) }
  , logWrites := w.writes
  , archiveWrites := (st.archives.filter (fun a => decide (t ≤ a.endDate))).length }

/-- Auto-increment primary key for a new archive row. -/
def freshArchiveId (archives : List PeriodArchive) : Nat :=
  (archives.map (fun a => a.id)).foldl max 0 + 1

/-- The archive row created by `archiveAndReset` (lines 426-433): it seals
`[currentStart, nextStart - 1]` with the snapshot of all logs before
`nextStart` and their cached total. -/
def sealedArchive (nowMs : Int) (db : DB) (currentStart nextStart : Int)
    (mode : String) : PeriodArchive :=
  { id := freshArchiveId db.archives
  , startDate := currentStart
  , endDate := nextStart - 1
  , mode := mode
  , totalBalance := ((db.logs.filter (fun l => decide (l.timestamp < nextStart))).map
      (fun l => l.kcal.getD 0)).sum
  , logs := db.logs.filter (fun l => decide (l.timestamp < nextStart))
  , createdAt := nowMs
  , updatedAt := none }

/-- service.js lines 412-442, `Service.archiveAndReset(currentStart,
nextStart, mode)`: snapshot all logs before `nextStart`; if any exist and no
archive already has `startDate == currentStart`, add one sealing
`[currentStart, nextStart - 1]`; always advance the persisted period start.
Logs are never deleted. -/
def archiveAndReset (nowMs : Int) (st : Settings) (db : DB)
    (currentStart nextStart : Int) (mode : String) : Settings × DB :=
  let logsToArchive := db.logs.filter (fun l => decide (l.timestamp < nextStart))
  let db2 :=
    if logsToArchive = [] then db
    else if db.archives.any (fun a => decide (a.startDate = currentStart)) then db
    else { db with archives :=
            db.archives ++ [sealedArchive nowMs db currentStart nextStart mode] }
  ({ st with periodStart := some nextStart }, db2)

/-- service.js lines 343-354, `Service.calculatePeriodStart(mode)`. -/
def calculatePeriodStart (cal : Cal) (now : Int) (mode : String) : Int :=
  if mode = "weekly" then getStartOfWeek now
  else if mode = "monthly" then cal.startOfMonth now
  else if mode = "custom" then startOfDay now
  else 0

/-- service.js lines 357-408, `Service.checkPeriodRollover()`.  Returns the
reported rollover flag together with the updated settings and database.
`parseInt` of a missing/unparseable stored value and the `!storedStart` and
`endDateTs &&` truthiness tests collapse to the `getD 0` / `= 0` checks. -/
def checkPeriodRollover (cal : Cal) (now : Int) (st : Settings) (db : DB) :
    Bool × Settings × DB :=
  let mode := st.periodMode.getD "weekly"
  if mode = "permanent" then (false, st, db)
  else
    let storedStart := st.periodStart.getD 0
    if storedStart = 0 then
      (false, { st with periodStart := some (calculatePeriodStart cal now mode) }, db)
    else if mode = "weekly" then
      let currentWeekStart := getStartOfWeek now
      if calendarDay currentWeekStart ≠ calendarDay storedStart then
        let r := archiveAndReset now st db storedStart currentWeekStart mode
        (true, r.1, r.2)
      else (false, st, db)
    else if mode = "monthly" then
      let currentMonthStart := cal.startOfMonth now
      if calendarDay currentMonthStart ≠ calendarDay storedStart then
        let r := archiveAndReset now st db storedStart currentMonthStart mode
        (true, r.1, r.2)
      else (false, st, db)
    else if mode = "custom" then
      let endDateTs := st.periodEndDate.getD 0
      if endDateTs ≠ 0 ∧ endOfDay endDateTs < now then (true, st, db)
      else (false, st, db)
    else (false, st, db)

/-- The `{ startDate, endDate, label }` argument of `updatePeriodSettings`. -/
structure CustomData where
  startDate : Option Int
  endDate : Option Int
  label : Option String

/-- Largest primary key in use in the logs table. -/
def maxLogId (logs : List LogEntry) : Nat :=
  (logs.map (fun l => l.id)).foldl max 0

/-- `bulkAdd` of id-stripped snapshot rows: each row re-enters the table with
a fresh auto-increment key. -/
def withFreshIds (baseId : Nat) (snap : List LogEntry) : List LogEntry :=
  (List.range snap.length).zipWith (fun k l => { l with id := baseId + k }) snap

/-- service.js lines 271-314, `Service.updatePeriodSettings(newMode,
customData)`.  Returns the updated settings, database and `restoredCount`.
For `'permanent'` with a nonempty archives table, every archive's snapshot
rows are re-inserted (stripped of their archival id), the archives are
cleared and the period start is reset to 0. -/
def updatePeriodSettings (cal : Cal) (now : Int) (st : Settings) (db : DB)
    (newMode : String) (cd : CustomData) : Settings × DB × Nat :=
  let st1 := { st with periodMode := some newMode }
  if newMode = "custom" then
    let st2 := match cd.startDate with
      | some s => { st1 with periodStart := some (startOfDay s) }
      | none => st1
    let st3 := match cd.endDate with
      | some e => { st2 with periodEndDate := some (endOfDay e) }
      | none => st2
    let st4 := match cd.label with
      | some lb => { st3 with customLabel := some (if lb = "" then "Project" else lb) }
      | none => st3
    (st4, db, 0)
  else if newMode = "permanent" then
    if db.archives = [] then (st1, db, 0)
    else
      let restored := withFreshIds (maxLogId db.logs + 1)
        ((db.archives.map (fun a => a.logs)).flatten)
      ({ st1 with periodStart := some 0 },
       { db with logs := db.logs ++ restored, archives := [] },
       restored.length)
  else
    ({ st1 with periodStart := some (calculatePeriodStart cal now newMode) }, db, 0)

/-- service.js lines 16-25, `_deduplicateChecks(rawChecks)`: fold into an
insertion-ordered map keyed by the calendar date string; an existing record
is replaced only when it is unsaved and the incoming one is saved.
`Object.values` preserves the insertion order of the keys. -/
def dedupInsert (acc : List (Int × CheckEntry)) (c : CheckEntry) :
    List (Int × CheckEntry) :=
  let d := calendarDay c.timestamp
  match acc.find? (fun kv => decide (kv.1 = d)) with
  | none => acc ++ [(d, c)]
  | some kv =>
    if !kv.2.isSaved && c.isSaved then
      acc.map (fun kv2 => if kv2.1 = d then (d, c) else kv2)
    else acc

/-- service.js lines 16-25. -/
def _deduplicateChecks (raw : List CheckEntry) : List CheckEntry :=
  (raw.foldl dedupInsert []).map (fun kv => kv.2)

/-! ### Derived notions used by the statements -/

/-- The archive invariant: the cached total equals the sum of the snapshot's
kcal values (`kcal || 0`). -/
def archInv (a : PeriodArchive) : Prop :=
  a.totalBalance = (a.logs.map (fun l => l.kcal.getD 0)).sum

instance (a : PeriodArchive) : Decidable (archInv a) := by
  unfold archInv
  infer_instance

/-- A log entry with its primary key forgotten (the identity in which archive
snapshots are restored). -/
def stripId (l : LogEntry) : LogEntry := { l with id := 0 }

/-- A log entry with its engine-owned derived fields forgotten: equality of
`eraseDerived` images says two rows agree on everything except `kcal` and
`memo`. -/
def eraseDerived (l : LogEntry) : LogEntry := { l with kcal := none, memo := none }

/-- The value a walked-over exercise row holds after the day is processed at
streak `s`: rewritten when the guard fires, untouched otherwise. -/
def pvOf (o : Oracle) (p : Profile) (s : Nat) (l : LogEntry) : LogEntry :=
  if writeCond o p s l then updatedEntry o p s l else l

/-- A ledger is settled for day `d` when no exercise row of that day would be
rewritten by a walk visiting `d`: the update guard is false for every day-`d`
exercise row at the day's streak as computed from the ledger itself. -/
def settledFor (o : Oracle) (p : Profile) (checkM : Int → Option Bool)
    (firstDay : Int) (L : List LogEntry) (d : Int) : Prop :=
  ∀ l ∈ exIdxOf L d,
    writeCond o p (streakLen o.qualifies (aggsOf o p L) checkM firstDay d) l = false

/-- The collision winner of `_deduplicateChecks` restricted to one day:
fold the replace-only-if-upgrade rule over the later records. -/
def dedupWinner (w : CheckEntry) (cs : List CheckEntry) : CheckEntry :=
  cs.foldl (fun a c => if !a.isSaved && c.isSaved then c else a) w

/-! ### Concrete fixtures for witnesses and counterexamples -/

/-- A concrete oracle instance (only used to instantiate universally
quantified statements). -/
def oW : Oracle :=
  { mets := fun _ => 3
  , exerciseBurn := fun m mins _ => m * mins
  , beerDebit := fun _ _ _ _ => -140
  , styleCarb := fun _ => 3
  , qualifies := fun _ ob => ob.getD false
  , credit := fun b s => if 3 ≤ s then ⟨b * 12 / 10, 12 / 10⟩ else ⟨b, 1⟩ }

/-- A concrete profile. -/
def pW : Profile := ⟨60, 170, 40, 1⟩

/-- A concrete calendar (the month-start function is irrelevant to the
instantiated statements). -/
def calW : Cal := ⟨fun t => t⟩

/-- A beer row whose earliest-in-ledger timestamp is 2 AM: inside the offset
window, so its virtual day is the previous calendar day. -/
def beerLogW : LogEntry :=
  { id := 1, timestamp := 5 * msPerDay + 2 * msPerHour, type := LogType.beer
  , kcal := some (-140), exerciseKey := "", minutes := 0, memo := none
  , size := some 350, abv := some 5, style := "Lager", count := some 1 }

/-- An exercise row at noon of calendar day 5, with stored kcal and memo. -/
def exLogW : LogEntry :=
  { id := 2, timestamp := 5 * msPerDay + 12 * msPerHour, type := LogType.exercise
  , kcal := some 90, exerciseKey := "walk", minutes := 30
  , memo := some { base := "", bonus := none }
  , size := none, abv := none, style := "", count := none }

/-- An unsaved check at noon of calendar day 0. -/
def checkW1 : CheckEntry := { id := 1, timestamp := 12 * msPerHour, isDryDay := false, isSaved := false }

/-- A saved check at 2 AM of calendar day 1 — same virtual day as `checkW1`,
different calendar day. -/
def checkW2 : CheckEntry := { id := 2, timestamp := 26 * msPerHour, isDryDay := true, isSaved := true }

/-- A saved check later on calendar day 0. -/
def checkW3 : CheckEntry := { id := 3, timestamp := 13 * msPerHour, isDryDay := true, isSaved := true }

/-- A pre-existing archive over days 0-9 whose cached total matches its
(empty) snapshot. -/
def archW : PeriodArchive :=
  { id := 1, startDate := 0, endDate := 10 * msPerDay - 1, mode := "weekly"
  , totalBalance := 0, logs := [], createdAt := 0, updatedAt := none }

/-- An archive whose snapshot holds one copy of `exLogW`. -/
def archW2 : PeriodArchive :=
  { id := 2, startDate := 0, endDate := 10 * msPerDay - 1, mode := "weekly"
  , totalBalance := 90, logs := [exLogW], createdAt := 0, updatedAt := none }

/-- An empty settings record. -/
def stW : Settings := ⟨none, none, none, none⟩

/-- A database with one beer row, one exercise row, one consistent archive. -/
def dbW : DB := { logs := [beerLogW, exLogW], checks := [checkW1], archives := [archW] }

/-! ## General lemmas -/

theorem length_walkDays (s e : Int) :
    (walkDays s e).length = min (e - s + 1).toNat 3651 := by
  unfold walkDays
  rw [List.length_map, List.length_range]

/-! ## C8 — termination bound of the forward walk -/

/-- C8 (amended): the forward walk of `recalcImpactedHistory` always halts,
processing `min (elapsed + 1) 3651` virtual days — at most 3651 of them, one
more than the claimed cap of 3650, because the `safeGuard++ > 3650` test
breaks only after the 3651st processed iteration. -/
theorem walk_termination_bound (s e : Int) :
    (walkDays s e).length = min (e - s + 1).toNat 3651
      ∧ (walkDays s e).length ≤ 3651 := by
  refine ⟨length_walkDays s e, ?_⟩
  rw [length_walkDays]
  exact Nat.min_le_right _ _

/-- C8 (counterexample to the stated cap): with a start day 1 000 000 days
before "now" the walk processes 3651 days, exceeding the claimed bound of
3650 iterations. -/
theorem walk_cap_overrun : 3650 < (walkDays 0 1000000).length := by
  rw [length_walkDays]
  decide

/-! ## C6 — duplicate check resolution -/

theorem foldl_dedupInsert_single (D : Int) (w : CheckEntry) (cs : List CheckEntry)
    (h : ∀ x ∈ cs, calendarDay x.timestamp = D) :
    cs.foldl dedupInsert [(D, w)] = [(D, dedupWinner w cs)] := by
  induction cs generalizing w with
  | nil => simp [dedupWinner]
  | cons c cs ih =>
    have hc : calendarDay c.timestamp = D := h c (by simp)
    have hrest : ∀ x ∈ cs, calendarDay x.timestamp = D := fun x hx => h x (by simp [hx])
    have hstep : dedupInsert [(D, w)] c = [(D, if !w.isSaved && c.isSaved then c else w)] := by
      by_cases hs : (!w.isSaved && c.isSaved) = true
      · simp [dedupInsert, hc, List.find?, hs]
      · simp [dedupInsert, hc, List.find?, hs]
    rw [List.foldl_cons, hstep, ih _ hrest]
    simp [dedupWinner]

theorem dedupWinner_of_saved (w : CheckEntry) (cs : List CheckEntry)
    (hw : w.isSaved = true) : dedupWinner w cs = w := by
  induction cs with
  | nil => rfl
  | cons c cs ih => simp [dedupWinner, hw] at ih ⊢; simpa [dedupWinner, hw] using ih

theorem dedupWinner_eq_find (w : CheckEntry) (cs : List CheckEntry) :
    dedupWinner w cs =
      if w.isSaved then w else (cs.find? (fun c => c.isSaved)).getD w := by
  induction cs generalizing w with
  | nil => simp [dedupWinner]
  | cons c cs ih =>
    by_cases hw : w.isSaved = true
    · simp [hw, dedupWinner_of_saved w (c :: cs) hw]
    · have hw' : w.isSaved = false := by simpa using hw
      by_cases hcs : c.isSaved = true
      · have : dedupWinner w (c :: cs) = dedupWinner c cs := by
          simp [dedupWinner, hw', hcs]
        rw [this, ih c]
        simp [hw', hcs, List.find?]
      · have hc' : c.isSaved = false := by simpa using hcs
        have : dedupWinner w (c :: cs) = dedupWinner w cs := by
          simp [dedupWinner, hw', hc']
        rw [this, ih w]
        simp [hw', hc', List.find?]

/-- C6 (amended): for raw check records all sharing one *calendar* day,
`_deduplicateChecks` returns exactly one record: the first saved one if any
record is saved, else the first record — an existing entry is displaced only
by a saved entry arriving while it is unsaved. -/
theorem dedup_single_calendar_day (c : CheckEntry) (cs : List CheckEntry) (D : Int)
    (h : ∀ x ∈ c :: cs, calendarDay x.timestamp = D) :
    _deduplicateChecks (c :: cs) =
      [((c :: cs).find? (fun x => x.isSaved)).getD c] := by
  have hc : calendarDay c.timestamp = D := h c (by simp)
  have hrest : ∀ x ∈ cs, calendarDay x.timestamp = D := fun x hx => h x (by simp [hx])
  have hfirst : dedupInsert [] c = [(D, c)] := by
    simp [dedupInsert, hc]
  unfold _deduplicateChecks
  rw [List.foldl_cons, hfirst, foldl_dedupInsert_single D c cs hrest]
  rw [dedupWinner_eq_find]
  by_cases hcs : c.isSaved = true
  · simp [hcs, List.find?]
  · have hc' : c.isSaved = false := by simpa using hcs
    simp [hc', List.find?]

/-- C6 (witness for the amendment): two checks on calendar day 0, the second
one saved; resolution keeps exactly the saved record. -/
theorem dedup_single_calendar_day_witness :
    (∀ x ∈ [checkW1, checkW3], calendarDay x.timestamp = 0)
      ∧ _deduplicateChecks [checkW1, checkW3] =
          [([checkW1, checkW3].find? (fun x => x.isSaved)).getD checkW1] :=
  ⟨by decide, dedup_single_calendar_day checkW1 [checkW3] 0 (by decide)⟩

/-- C6 (counterexample to the claim as stated): the resolver keys on the raw
calendar date, not the virtual day — two records of one virtual day that
straddle midnight survive as two records. -/
theorem dedup_virtual_day_cx :
    getVirtualDate checkW1.timestamp = getVirtualDate checkW2.timestamp
      ∧ (_deduplicateChecks [checkW1, checkW2]).length ≠ 1 := by
  decide

/-! ## C5 — the anchor date -/

/-- C5 (counterexample to the claim as stated): with the ledger's earliest
timestamp at 2 AM, the anchor used by the snapshot scan is the raw calendar
day of that timestamp, not its virtual day. -/
theorem anchor_not_virtual_cx :
    anchorDay 0 [beerLogW] [] = calendarDay beerLogW.timestamp
      ∧ anchorDay 0 [beerLogW] [] ≠ getVirtualDate beerLogW.timestamp := by
  decide

/-- C5 (amended): the anchor equals the raw calendar day of the earliest
timestamp across logs and checks; it agrees with the virtual day exactly when
that timestamp's time of day is at or past the 4 AM boundary. -/
theorem anchor_is_calendar_day (now : Int) (logs : List LogEntry)
    (checks : List CheckEntry) (m : Int)
    (hm : (logs.map (fun l => l.timestamp) ++ checks.map (fun c => c.timestamp)).min?
        = some m) :
    anchorDay now logs checks = calendarDay m
      ∧ (4 * msPerHour ≤ m % msPerDay → anchorDay now logs checks = getVirtualDate m) := by
  constructor
  · unfold anchorDay
    rw [hm]
  · intro hbound
    unfold anchorDay
    rw [hm]
    show calendarDay m = getVirtualDate m
    unfold calendarDay getVirtualDate msPerDay msPerHour at *
    omega

/-- C5 (witness for the amendment): a noon-timestamped ledger, where the
calendar anchor and the virtual day agree. -/
theorem anchor_is_calendar_day_witness :
    (([exLogW].map (fun l => l.timestamp) ++
        ([] : List CheckEntry).map (fun c => c.timestamp)).min? = some exLogW.timestamp)
      ∧ (anchorDay 0 [exLogW] [] = calendarDay exLogW.timestamp
          ∧ (4 * msPerHour ≤ exLogW.timestamp % msPerDay →
              anchorDay 0 [exLogW] [] = getVirtualDate exLogW.timestamp)) :=
  ⟨by decide, anchor_is_calendar_day 0 [exLogW] [] exLogW.timestamp (by decide)⟩

/-! ## C10 — rollover with no persisted period start -/

/-- C10: when the stored period start is missing, unparseable or zero and the
mode is not permanent, `checkPeriodRollover` persists the freshly computed
boundary for the mode, reports no rollover, and touches neither logs, checks
nor archives. -/
theorem rollover_initializes_start (cal : Cal) (now : Int) (st : Settings) (db : DB)
    (h1 : st.periodMode.getD "weekly" ≠ "permanent")
    (h2 : st.periodStart.getD 0 = 0) :
    checkPeriodRollover cal now st db =
      (false,
       { st with periodStart := some (calculatePeriodStart cal now (st.periodMode.getD "weekly")) },
       db) := by
  simp [checkPeriodRollover, h1, h2]

/-- C10 (witness): the empty settings record in weekly-default mode. -/
theorem rollover_initializes_start_witness :
    (stW.periodMode.getD "weekly" ≠ "permanent" ∧ stW.periodStart.getD 0 = 0)
      ∧ checkPeriodRollover calW 0 stW dbW =
          (false,
           { stW with periodStart := some (calculatePeriodStart calW 0 (stW.periodMode.getD "weekly")) },
           dbW) :=
  ⟨⟨by decide, by decide⟩,
    rollover_initializes_start calW 0 stW dbW (by decide) (by decide)⟩

/-! ## C7 — archive rollover non-duplication and idempotence -/

/-- C7: provided the archives partition startDates (no two share one),
`archiveAndReset` preserves that; and re-invoking with identical arguments is
a complete no-op on the database — no second archive, no log deleted — with
the persisted period start again `nextStart`. -/
theorem archiveAndReset_no_dup_idem (nowMs nowMs2 : Int) (st : Settings) (db : DB)
    (cs ns : Int) (mode : String)
    (hnd : db.archives.Pairwise (fun a b => a.startDate ≠ b.startDate)) :
    (archiveAndReset nowMs st db cs ns mode).2.archives.Pairwise
        (fun a b => a.startDate ≠ b.startDate)
      ∧ archiveAndReset nowMs2 (archiveAndReset nowMs st db cs ns mode).1
          (archiveAndReset nowMs st db cs ns mode).2 cs ns mode
        = archiveAndReset nowMs st db cs ns mode
      ∧ (archiveAndReset nowMs st db cs ns mode).2.logs = db.logs
      ∧ (archiveAndReset nowMs st db cs ns mode).1.periodStart = some ns := by
  by_cases hL : db.logs.filter (fun l => decide (l.timestamp < ns)) = []
  · have hr1 : archiveAndReset nowMs st db cs ns mode
        = ({ st with periodStart := some ns }, db) := by
      simp only [archiveAndReset]
      rw [if_pos hL]
    have hr2 : archiveAndReset nowMs2 { st with periodStart := some ns } db cs ns mode
        = ({ st with periodStart := some ns }, db) := by
      simp only [archiveAndReset]
      rw [if_pos hL]
    rw [hr1]
    exact ⟨hnd, hr2, rfl, rfl⟩
  · by_cases hA : db.archives.any (fun a => decide (a.startDate = cs)) = true
    · have hr1 : archiveAndReset nowMs st db cs ns mode
          = ({ st with periodStart := some ns }, db) := by
        simp only [archiveAndReset]
        rw [if_neg hL, if_pos hA]
      have hr2 : archiveAndReset nowMs2 { st with periodStart := some ns } db cs ns mode
          = ({ st with periodStart := some ns }, db) := by
        simp only [archiveAndReset]
        rw [if_neg hL, if_pos hA]
      rw [hr1]
      exact ⟨hnd, hr2, rfl, rfl⟩
    · have hr1 : archiveAndReset nowMs st db cs ns mode
          = ({ st with periodStart := some ns },
             { db with archives :=
                 db.archives ++ [sealedArchive nowMs db cs ns mode] }) := by
        simp only [archiveAndReset]
        rw [if_neg hL, if_neg hA]
      have hall : ∀ a ∈ db.archives, a.startDate ≠ cs := by
        intro a ha heq
        exact hA (List.any_eq_true.mpr ⟨a, ha, by simp [heq]⟩)
      have hL2 : ¬(({ db with archives :=
            db.archives ++ [sealedArchive nowMs db cs ns mode] } : DB).logs.filter
              (fun l => decide (l.timestamp < ns)) = []) := hL
      have hA2 : (({ db with archives :=
            db.archives ++ [sealedArchive nowMs db cs ns mode] } : DB).archives.any
              (fun a => decide (a.startDate = cs))) = true := by
        refine List.any_eq_true.mpr ⟨sealedArchive nowMs db cs ns mode, by simp, by simp [sealedArchive]⟩
      have hr2 : archiveAndReset nowMs2 { st with periodStart := some ns }
            { db with archives := db.archives ++ [sealedArchive nowMs db cs ns mode] }
            cs ns mode
          = ({ st with periodStart := some ns },
             { db with archives :=
                 db.archives ++ [sealedArchive nowMs db cs ns mode] }) := by
        simp only [archiveAndReset]
        rw [if_neg hL2, if_pos hA2]
      rw [hr1]
      refine ⟨?_, hr2, rfl, rfl⟩
      refine List.pairwise_append.mpr ⟨hnd, by simp, ?_⟩
      intro a ha b hb
      simp at hb
      rw [hb]
      exact hall a ha

/-- C7 (witness): one live log, no pre-existing archive. -/
theorem archiveAndReset_no_dup_idem_witness :
    (([] : List PeriodArchive).Pairwise (fun a b => a.startDate ≠ b.startDate))
      ∧ ((archiveAndReset 0 stW { logs := [exLogW], checks := [], archives := [] }
            0 (7 * msPerDay) "weekly").2.archives.Pairwise
          (fun a b => a.startDate ≠ b.startDate)
        ∧ archiveAndReset 1
            (archiveAndReset 0 stW { logs := [exLogW], checks := [], archives := [] }
              0 (7 * msPerDay) "weekly").1
            (archiveAndReset 0 stW { logs := [exLogW], checks := [], archives := [] }
              0 (7 * msPerDay) "weekly").2 0 (7 * msPerDay) "weekly"
          = archiveAndReset 0 stW { logs := [exLogW], checks := [], archives := [] }
              0 (7 * msPerDay) "weekly"
        ∧ (archiveAndReset 0 stW { logs := [exLogW], checks := [], archives := [] }
            0 (7 * msPerDay) "weekly").2.logs
          = ({ logs := [exLogW], checks := [], archives := [] } : DB).logs
        ∧ (archiveAndReset 0 stW { logs := [exLogW], checks := [], archives := [] }
            0 (7 * msPerDay) "weekly").1.periodStart = some (7 * msPerDay)) :=
  ⟨List.Pairwise.nil,
    archiveAndReset_no_dup_idem 0 1 stW
      { logs := [exLogW], checks := [], archives := [] } 0 (7 * msPerDay) "weekly"
      List.Pairwise.nil⟩

/-! ## C2 — the archive balance invariant -/

/-- C2: if every archive satisfies `totalBalance = Σ kcal` over its snapshot,
then after any `recalcImpactedHistory` run and after any `archiveAndReset`
every archive still satisfies it — refreshed and newly sealed archives
re-establish it by construction, untouched archives keep it. -/
theorem archive_totals_consistent (o : Oracle) (p : Profile) (now t nowMs cs ns : Int)
    (mode : String) (st : Settings) (db : DB)
    (h : ∀ a ∈ db.archives, archInv a) :
    (∀ a ∈ (recalcImpactedHistory o p now db t).db.archives, archInv a)
      ∧ (∀ a ∈ (archiveAndReset nowMs st db cs ns mode).2.archives, archInv a) := by
  constructor
  · intro a ha
    have ha2 : a ∈ db.archives.map
        (refreshOne now t ((recalcImpactedHistory o p now db t).db.logs)) := ha
    obtain ⟨x, hx, hxa⟩ := List.mem_map.mp ha2
    subst hxa
    unfold refreshOne
    by_cases hc : t ≤ x.endDate
    · rw [if_pos hc]
      rfl
    · rw [if_neg hc]
      exact h x hx
  · intro a ha
    by_cases hL : db.logs.filter (fun l => decide (l.timestamp < ns)) = []
    · have hr : (archiveAndReset nowMs st db cs ns mode).2 = db := by
        simp only [archiveAndReset]
        rw [if_pos hL]
      rw [hr] at ha
      exact h a ha
    · by_cases hA : db.archives.any (fun a => decide (a.startDate = cs)) = true
      · have hr : (archiveAndReset nowMs st db cs ns mode).2 = db := by
          simp only [archiveAndReset]
          rw [if_neg hL, if_pos hA]
        rw [hr] at ha
        exact h a ha
      · have hr : (archiveAndReset nowMs st db cs ns mode).2
            = { db with archives := db.archives ++ [sealedArchive nowMs db cs ns mode] } := by
          simp only [archiveAndReset]
          rw [if_neg hL, if_neg hA]
        rw [hr] at ha
        rcases List.mem_append.mp ha with hold | hnew
        · exact h a hold
        · have : a = sealedArchive nowMs db cs ns mode := by simpa using hnew
          subst this
          rfl

/-- C2 (witness): the fixture database whose single archive is consistent. -/
theorem archive_totals_consistent_witness :
    (∀ a ∈ dbW.archives, archInv a)
      ∧ ((∀ a ∈ (recalcImpactedHistory oW pW 0 dbW 0).db.archives, archInv a)
          ∧ (∀ a ∈ (archiveAndReset 0 stW dbW 0 (7 * msPerDay) "weekly").2.archives, archInv a)) :=
  ⟨by decide,
    archive_totals_consistent oW pW 0 0 0 0 (7 * msPerDay) "weekly" stW dbW (by decide)⟩

/-! ## C4 — switching to PERMANENT -/

theorem withFreshIds_cons (b : Nat) (l : LogEntry) (s : List LogEntry) :
    withFreshIds b (l :: s) = { l with id := b } :: withFreshIds (b + 1) s := by
  unfold withFreshIds
  rw [List.length_cons, List.range_succ_eq_map, List.zipWith_cons_cons,
    List.zipWith_map_left]
  refine congrArg₂ _ rfl ?_
  have : (fun a (b2 : LogEntry) => { b2 with id := b + Nat.succ a })
      = (fun k (l2 : LogEntry) => { l2 with id := b + 1 + k }) := by
    funext k l2
    have hk : b + Nat.succ k = b + 1 + k := by omega
    rw [hk]
  rw [this]

theorem length_withFreshIds (b : Nat) (s : List LogEntry) :
    (withFreshIds b s).length = s.length := by
  unfold withFreshIds
  rw [List.length_zipWith, List.length_range]
  exact Nat.min_self _

theorem map_withFreshIds {α : Type} (g : LogEntry → α)
    (hg : ∀ (l : LogEntry) (b : Nat), g { l with id := b } = g l) :
    ∀ (b : Nat) (s : List LogEntry), (withFreshIds b s).map g = s.map g := by
  intro b s
  induction s generalizing b with
  | nil => rfl
  | cons l s ih =>
    rw [withFreshIds_cons, List.map_cons, List.map_cons, hg, ih]

/-- C4 (counterexample to the claim as stated): with no archives stored,
switching to PERMANENT changes the mode but does *not* reset the persisted
period start — it stays at its old value instead of the beginning of time. -/
theorem permanent_no_reset_cx :
    ((updatePeriodSettings calW 0 { stW with periodStart := some 5 }
        { logs := [], checks := [], archives := [] } "permanent" ⟨none, none, none⟩).1).periodStart
      = some 5 := by
  decide

/-- C4 (amended): switching to PERMANENT with at least one stored archive
resets the period start to 0, clears the archives, and re-inserts every
archive snapshot row exactly once with a fresh identity: the restored suffix is the
concatenation of the snapshots modulo id, so the restored count, total log
count and total kcal sum equal the corresponding sums over all snapshots
(rows captured by several overlapping snapshots are restored once per
snapshot).  With zero archives only the mode changes. -/
theorem permanent_restore_lossless (cal : Cal) (now : Int) (st : Settings) (db : DB)
    (cd : CustomData) (hne : db.archives ≠ []) :
    ((updatePeriodSettings cal now st db "permanent" cd).1).periodStart = some 0
      ∧ ((updatePeriodSettings cal now st db "permanent" cd).1).periodMode = some "permanent"
      ∧ ((updatePeriodSettings cal now st db "permanent" cd).2.1).archives = []
      ∧ (updatePeriodSettings cal now st db "permanent" cd).2.2
          = (db.archives.map (fun a => a.logs.length)).sum
      ∧ ((updatePeriodSettings cal now st db "permanent" cd).2.1).logs.length
          = db.logs.length + (db.archives.map (fun a => a.logs.length)).sum
      ∧ (((updatePeriodSettings cal now st db "permanent" cd).2.1).logs.map
            (fun l => l.kcal.getD 0)).sum
          = (db.logs.map (fun l => l.kcal.getD 0)).sum
            + (db.archives.map (fun a => (a.logs.map (fun l => l.kcal.getD 0)).sum)).sum
      ∧ (((updatePeriodSettings cal now st db "permanent" cd).2.1).logs.drop
            db.logs.length).map stripId
          = ((db.archives.map (fun a => a.logs)).flatten).map stripId := by
  have hr : updatePeriodSettings cal now st db "permanent" cd
      = ({ st with periodMode := some "permanent", periodStart := some 0 },
         { db with logs := db.logs ++ withFreshIds (maxLogId db.logs + 1) ((db.archives.map (fun a => a.logs)).flatten), archives := [] },
         (withFreshIds (maxLogId db.logs + 1) ((db.archives.map (fun a => a.logs)).flatten)).length) := by
    unfold updatePeriodSettings
    rw [if_neg (by decide), if_pos rfl, if_neg hne]
  rw [hr]
  have hlen : (withFreshIds (maxLogId db.logs + 1)
      ((db.archives.map (fun a => a.logs)).flatten)).length
      = (db.archives.map (fun a => a.logs.length)).sum := by
    rw [length_withFreshIds, List.length_flatten]
    rw [List.map_map]
    rfl
  refine ⟨rfl, rfl, rfl, hlen, ?_, ?_, ?_⟩
  · rw [List.length_append, hlen]
  · rw [List.map_append, List.sum_append]
    refine congrArg _ ?_
    rw [map_withFreshIds (fun l => l.kcal.getD 0) (fun l b => rfl)]
    rw [List.map_flatten, List.sum_flatten]
    simp only [List.map_map]
    exact congrArg List.sum (List.map_congr_left (fun a ha => rfl))
  · rw [List.drop_left]
    exact map_withFreshIds stripId (fun l b => rfl) _ _

/-- C4 (witness for the amendment): a database with one nonempty archive. -/
theorem permanent_restore_lossless_witness :
    (({ logs := [beerLogW], checks := [], archives := [archW2] } : DB).archives ≠ [])
      ∧ ((updatePeriodSettings calW 0 stW { logs := [beerLogW], checks := [], archives := [archW2] } "permanent" ⟨none, none, none⟩).1).periodStart = some 0 := by
  constructor
  · decide
  · exact (permanent_restore_lossless calW 0 stW
      { logs := [beerLogW], checks := [], archives := [archW2] }
      ⟨none, none, none⟩ (by decide)).1

/-! ## Machinery for the forward walk (C1, C3, C9)

The walk is analysed through the image of the ledger under `eraseDerived`:
two ledgers with equal images agree on every field except the engine-owned
`kcal`/`memo`, positionwise. -/

theorem streakAux_congr (q : Option DayAgg → Option Bool → Bool)
    (a1 a2 : Int → Option DayAgg) (c1 c2 : Int → Option Bool)
    (fuel : Nat) (target : Int)
    (ha : ∀ e : Int, e < target → a1 e = a2 e)
    (hc : ∀ e : Int, e < target → c1 e = c2 e) :
    streakAux q a1 c1 target fuel = streakAux q a2 c2 target fuel := by
  induction fuel generalizing target with
  | zero => rfl
  | succ n ih =>
    unfold streakAux
    rw [ha (target - 1) (by omega), hc (target - 1) (by omega)]
    by_cases hq : q (a2 (target - 1)) (c2 (target - 1)) = true
    · rw [if_pos hq, if_pos hq,
        ih (target - 1) (fun e he => ha e (by omega)) (fun e he => hc e (by omega))]
    · rw [if_neg hq, if_neg hq]

theorem streakLen_congr (q : Option DayAgg → Option Bool → Bool)
    (a1 a2 : Int → Option DayAgg) (c : Int → Option Bool) (firstDay target : Int)
    (ha : ∀ e : Int, e < target → a1 e = a2 e) :
    streakLen q a1 c firstDay target = streakLen q a2 c firstDay target :=
  streakAux_congr q a1 a2 c c _ target ha (fun _ _ => rfl)

theorem effAgg_zero (aggs : Int → Option DayAgg) (e : Int) :
    effAgg aggs (fun _ => 0) e = aggs e := by
  unfold effAgg
  cases aggs e with
  | none => rfl
  | some a => simp

theorem map_factor {α : Type} (g : LogEntry → α)
    (hg : ∀ l : LogEntry, g (eraseDerived l) = g l) {L1 L2 : List LogEntry}
    (h : L1.map eraseDerived = L2.map eraseDerived) : L1.map g = L2.map g := by
  have key : ∀ L : List LogEntry, L.map g = (L.map eraseDerived).map g := by
    intro L
    rw [List.map_map]
    exact (List.map_congr_left (fun a ha => (hg a).symm))
  rw [key L1, key L2, h]

theorem length_eq_of_der {L1 L2 : List LogEntry}
    (h : L1.map eraseDerived = L2.map eraseDerived) : L1.length = L2.length := by
  have := congrArg List.length h
  simpa using this

theorem dayLogs_der_image (L : List LogEntry) (e : Int) :
    (dayLogs L e).map eraseDerived
      = (L.map eraseDerived).filter (fun x => decide (getVirtualDate x.timestamp = e)) := by
  unfold dayLogs
  rw [List.filter_map]
  rfl

theorem exIdxOf_der_image (L : List LogEntry) (d : Int) :
    (exIdxOf L d).map eraseDerived
      = (L.map eraseDerived).filter (fun x =>
          decide (x.type = LogType.exercise) && decide (getVirtualDate x.timestamp = d)) := by
  unfold exIdxOf
  rw [List.filter_map]
  rfl

theorem dayLogs_der_eq {L1 L2 : List LogEntry}
    (h : L1.map eraseDerived = L2.map eraseDerived) (e : Int) :
    (dayLogs L1 e).map eraseDerived = (dayLogs L2 e).map eraseDerived := by
  rw [dayLogs_der_image, dayLogs_der_image, h]

theorem dayLogs_nil_iff_of_der {L1 L2 : List LogEntry}
    (h : L1.map eraseDerived = L2.map eraseDerived) (e : Int) :
    dayLogs L1 e = [] ↔ dayLogs L2 e = [] := by
  have h2 := dayLogs_der_eq h e
  constructor
  · intro h0
    rw [h0] at h2
    exact List.map_eq_nil_iff.mp h2.symm
  · intro h0
    rw [h0] at h2
    exact List.map_eq_nil_iff.mp h2

theorem any_eq_of_der {L1 L2 : List LogEntry} (f : LogEntry → Bool)
    (hf : ∀ l : LogEntry, f (eraseDerived l) = f l)
    (h : L1.map eraseDerived = L2.map eraseDerived) : L1.any f = L2.any f := by
  have key : ∀ L : List LogEntry, L.any f = (L.map eraseDerived).any f := by
    intro L
    rw [List.any_map]
    congr 1
    funext a
    exact (hf a).symm
  rw [key L1, key L2, h]

theorem aggsOf_congr (o : Oracle) (p : Profile) {L1 L2 : List LogEntry} (e : Int)
    (h : dayLogs L1 e = dayLogs L2 e) : aggsOf o p L1 e = aggsOf o p L2 e := by
  unfold aggsOf balanceOf
  rw [h]

theorem effAgg_aggsOf (o : Oracle) (p : Profile) {S0 L : List LogEntry}
    (corr : Int → ℚ) (hf : S0.map eraseDerived = L.map eraseDerived)
    (hcorr : ∀ e, corr e = balanceOf o p L e - balanceOf o p S0 e) (e : Int) :
    effAgg (aggsOf o p S0) corr e = aggsOf o p L e := by
  unfold effAgg aggsOf
  by_cases h0 : dayLogs S0 e = []
  · have h2 : dayLogs L e = [] := (dayLogs_nil_iff_of_der hf e).mp h0
    rw [if_pos h0, if_pos h2]
    rfl
  · have h2 : ¬(dayLogs L e = []) := fun hh => h0 ((dayLogs_nil_iff_of_der hf e).mpr hh)
    rw [if_neg h0, if_neg h2]
    have hday := dayLogs_der_eq hf e
    have hbeer : (dayLogs S0 e).any (fun l => decide (l.type = LogType.beer))
        = (dayLogs L e).any (fun l => decide (l.type = LogType.beer)) :=
      any_eq_of_der _ (fun l => rfl) hday
    have hex : (dayLogs S0 e).any (fun l => decide (l.type = LogType.exercise))
        = (dayLogs L e).any (fun l => decide (l.type = LogType.exercise)) :=
      any_eq_of_der _ (fun l => rfl) hday
    have hbal : balanceOf o p S0 e + corr e = balanceOf o p L e := by
      rw [hcorr e]
      ring
    show some ({ hasBeer := (dayLogs S0 e).any (fun l => decide (l.type = LogType.beer)), hasExercise := (dayLogs S0 e).any (fun l => decide (l.type = LogType.exercise)), balance := balanceOf o p S0 e + corr e } : DayAgg) = some _
    rw [hbeer, hex, hbal]

theorem eraseDerived_pvOf (o : Oracle) (p : Profile) (s : Nat) (l : LogEntry) :
    eraseDerived (pvOf o p s l) = eraseDerived l := by
  unfold pvOf
  by_cases hw : writeCond o p s l = true
  · rw [if_pos hw]
    rfl
  · rw [if_neg hw]

theorem id_pvOf (o : Oracle) (p : Profile) (s : Nat) (l : LogEntry) :
    (pvOf o p s l).id = l.id := by
  unfold pvOf
  by_cases hw : writeCond o p s l = true
  · rw [if_pos hw]
    rfl
  · rw [if_neg hw]

/-- A processed row is settled: running the guard again at the same streak
never fires — the rewritten kcal matches exactly and the memo regeneration is
idempotent. -/
theorem writeCond_pvOf (o : Oracle) (p : Profile) (s : Nat) (l : LogEntry) :
    writeCond o p s (pvOf o p s l) = false := by
  unfold pvOf
  by_cases hw : writeCond o p s l = true
  · rw [if_pos hw]
    unfold writeCond
    rw [Bool.or_eq_false_iff]
    constructor
    · rw [decide_eq_false_iff_not]
      intro habs
      have hk : ((updatedEntry o p s l).kcal.getD 0
          - (credOf o p s (updatedEntry o p s l)).kcal) = 0 := sub_self _
      rw [hk] at habs
      simp at habs
      exact absurd habs (by norm_num)
    · rw [decide_eq_false_iff_not]
      intro habs
      exact habs rfl
  · rw [if_neg hw]
    exact Bool.not_eq_true _ |>.mp hw

theorem processLog_skip (o : Oracle) (p : Profile) (aggs0 : Int → Option DayAgg)
    (d : Int) (s : Nat) (st : WalkState) (l : LogEntry)
    (hw : writeCond o p s l = false) :
    processLog o p aggs0 d s st l = st := by
  unfold processLog
  rw [if_neg (by rw [hw]; exact Bool.false_ne_true)]

theorem foldl_processLog_skip (o : Oracle) (p : Profile)
    (aggs0 : Int → Option DayAgg) (d : Int) (s : Nat) (ls : List LogEntry)
    (st : WalkState) (h : ∀ l ∈ ls, writeCond o p s l = false) :
    ls.foldl (processLog o p aggs0 d s) st = st := by
  induction ls generalizing st with
  | nil => rfl
  | cons l ls ih =>
    rw [List.foldl_cons, processLog_skip o p aggs0 d s st l (h l (by simp))]
    exact ih st (fun x hx => h x (by simp [hx]))

theorem updateLog_eq_map_self (logs : List LogEntry) (l : LogEntry) (k : ℚ) (m : Memo)
    (hmem : l ∈ logs) (hnd : (logs.map (fun x => x.id)).Nodup) :
    updateLog logs l.id k m
      = logs.map (fun b => if b = l then { l with kcal := some k, memo := some m } else b) := by
  unfold updateLog
  apply List.map_congr_left
  intro b hb
  by_cases hbl : b = l
  · subst hbl
    rw [if_pos rfl, if_pos rfl]
  · have hid : ¬(b.id = l.id) := by
      intro habs
      exact hbl (List.inj_on_of_nodup_map hnd hb hmem habs)
    rw [if_neg hid, if_neg hbl]

theorem processLog_logs (o : Oracle) (p : Profile) (aggs0 : Int → Option DayAgg)
    (d : Int) (s : Nat) (st : WalkState) (l : LogEntry)
    (hmem : l ∈ st.logs) (hnd : (st.logs.map (fun x => x.id)).Nodup) :
    (processLog o p aggs0 d s st l).logs
      = st.logs.map (fun b => if b = l then pvOf o p s l else b) := by
  unfold processLog pvOf
  by_cases hw : writeCond o p s l = true
  · rw [if_pos hw, if_pos hw]
    exact updateLog_eq_map_self st.logs l _ _ hmem hnd
  · rw [if_neg hw, if_neg hw]
    refine Eq.symm ?_
    have : ∀ b ∈ st.logs, (if b = l then l else b) = b := by
      intro b hb
      by_cases hbl : b = l
      · rw [if_pos hbl, hbl]
      · rw [if_neg hbl]
    rw [List.map_congr_left this]
    exact List.map_id _

/-- Replacing the unique occurrence of `l` by `u` shifts a mapped sum by
`g u - g l`. -/
theorem sum_map_replace (L : List LogEntry) (l u : LogEntry) (g : LogEntry → ℚ)
    (hcount : L.count l = 1) :
    ((L.map (fun b => if b = l then u else b)).map g).sum
      = (L.map g).sum + (g u - g l) := by
  induction L with
  | nil => simp at hcount
  | cons x L ih =>
    by_cases hxl : x = l
    · subst hxl
      have h0 : L.count x = 0 := by
        have := List.count_cons_self x L
        omega
      have hno : ∀ b ∈ L, ¬(b = x) := by
        intro b hb habs
        subst habs
        rw [List.count_eq_zero] at h0
        exact h0 hb
      have hLmap : L.map (fun b => if b = x then u else b) = L := by
        have : ∀ b ∈ L, (if b = x then u else b) = b := by
          intro b hb
          rw [if_neg (hno b hb)]
        rw [List.map_congr_left this]
        exact List.map_id _
      simp only [List.map_cons, List.sum_cons]
      rw [if_true, hLmap]
      ring
    · have hc : L.count l = 1 := by
        rw [List.count_cons] at hcount
        simpa [hxl] using hcount
      simp only [List.map_cons, List.sum_cons]
      rw [if_neg hxl, ih hc]
      ring

theorem timestamp_pvOf (o : Oracle) (p : Profile) (s : Nat) (l : LogEntry) :
    (pvOf o p s l).timestamp = l.timestamp := by
  unfold pvOf
  by_cases hw : writeCond o p s l = true
  · rw [if_pos hw]
    rfl
  · rw [if_neg hw]

theorem exIdxOf_eq_filter (L : List LogEntry) (d : Int) :
    exIdxOf L d = (dayLogs L d).filter (fun l => decide (l.type = LogType.exercise)) := by
  unfold exIdxOf dayLogs
  rw [List.filter_filter]

theorem exIdxOf_congr {L1 L2 : List LogEntry} (d : Int)
    (h : dayLogs L1 d = dayLogs L2 d) : exIdxOf L1 d = exIdxOf L2 d := by
  rw [exIdxOf_eq_filter, exIdxOf_eq_filter, h]

/-- Applying the per-day rewrite map leaves every other day's bucket
untouched. -/
theorem dayLogs_map_untouched (o : Oracle) (p : Profile) (s : Nat)
    (ls L : List LogEntry) (d e : Int)
    (hls : ∀ l ∈ ls, getVirtualDate l.timestamp = d) (hne : e ≠ d) :
    dayLogs (L.map (fun b => if b ∈ ls then pvOf o p s b else b)) e = dayLogs L e := by
  unfold dayLogs
  rw [List.filter_map]
  have hpred : ∀ b ∈ L,
      ((fun x => decide (getVirtualDate x.timestamp = e)) ∘
        (fun b => if b ∈ ls then pvOf o p s b else b)) b
      = decide (getVirtualDate b.timestamp = e) := by
    intro b hb
    simp only [Function.comp_apply]
    by_cases hbls : b ∈ ls
    · rw [if_pos hbls, timestamp_pvOf]
    · rw [if_neg hbls]
  rw [List.filter_congr hpred]
  have hid : ∀ b ∈ L.filter (fun x => decide (getVirtualDate x.timestamp = e)),
      (if b ∈ ls then pvOf o p s b else b) = b := by
    intro b hb
    have hbe : getVirtualDate b.timestamp = e := by
      simpa using (List.mem_filter.mp hb).2
    refine if_neg (fun habs => hne ?_)
    rw [← hbe, hls b habs]
  rw [List.map_congr_left hid]
  exact List.map_id _

/-- The inner per-day fold rewrites exactly the rows of its work list, each
to its processed value. -/
theorem inner_fold_logs (o : Oracle) (p : Profile) (aggs0 : Int → Option DayAgg)
    (d : Int) (s : Nat) :
    ∀ (ls : List LogEntry) (st : WalkState),
    (ls.map (fun x => x.id)).Nodup →
    (∀ l ∈ ls, l ∈ st.logs) →
    (st.logs.map (fun x => x.id)).Nodup →
    (ls.foldl (processLog o p aggs0 d s) st).logs
      = st.logs.map (fun b => if b ∈ ls then pvOf o p s b else b) := by
  intro ls
  induction ls with
  | nil =>
    intro st _ _ _
    show st.logs = _
    refine Eq.symm ?_
    have h : ∀ b ∈ st.logs, (if b ∈ ([] : List LogEntry) then pvOf o p s b else b) = b := by
      intro b hb
      rw [if_neg (by simp)]
    rw [List.map_congr_left h]
    exact List.map_id _
  | cons l ls ih =>
    intro st hndls hsub hnd
    rw [List.foldl_cons]
    have hmem : l ∈ st.logs := hsub l (by simp)
    have hlogs1 : (processLog o p aggs0 d s st l).logs
        = st.logs.map (fun b => if b = l then pvOf o p s l else b) :=
      processLog_logs o p aggs0 d s st l hmem hnd
    have hids1 : (processLog o p aggs0 d s st l).logs.map (fun x => x.id)
        = st.logs.map (fun x => x.id) := by
      rw [hlogs1, List.map_map]
      apply List.map_congr_left
      intro b hb
      simp only [Function.comp_apply]
      by_cases hbl : b = l
      · subst hbl
        rw [if_pos rfl, id_pvOf]
      · rw [if_neg hbl]
    have hnd1 : ((processLog o p aggs0 d s st l).logs.map (fun x => x.id)).Nodup := by
      rw [hids1]
      exact hnd
    have hndls' : (ls.map (fun x => x.id)).Nodup := (List.nodup_cons.mp hndls).2
    have hlid_not : l.id ∉ ls.map (fun x => x.id) := (List.nodup_cons.mp hndls).1
    have hsub1 : ∀ x ∈ ls, x ∈ (processLog o p aggs0 d s st l).logs := by
      intro x hx
      have hxid : x.id ≠ l.id := by
        intro habs
        exact hlid_not (habs ▸ List.mem_map_of_mem (fun y => y.id) hx)
      have hxl : x ≠ l := fun habs => hxid (congrArg (fun y => y.id) habs)
      rw [hlogs1]
      exact List.mem_map.mpr ⟨x, hsub x (by simp [hx]), by rw [if_neg hxl]⟩
    rw [ih (processLog o p aggs0 d s st l) hndls' hsub1 hnd1, hlogs1, List.map_map]
    apply List.map_congr_left
    intro b hb
    simp only [Function.comp_apply]
    by_cases hbl : b = l
    · subst hbl
      rw [if_pos rfl]
      have hpvnot : pvOf o p s b ∉ ls := by
        intro habs
        have hin : (pvOf o p s b).id ∈ ls.map (fun x => x.id) :=
          List.mem_map_of_mem (fun x => x.id) habs
        rw [id_pvOf] at hin
        exact hlid_not hin
      rw [if_neg hpvnot, if_pos (by simp)]
    · rw [if_neg hbl]
      by_cases hbls : b ∈ ls
      · rw [if_pos hbls, if_pos (by simp [hbls])]
      · rw [if_neg hbls, if_neg (by simp [hbl, hbls])]

/-- Rewriting the unique row `l` to `u` (same timestamp) shifts the day
balance of `l`'s virtual day by the contribution difference and leaves every
other day balance unchanged. -/
theorem balanceOf_map_replace (o : Oracle) (p : Profile) (L : List LogEntry)
    (l u : LogEntry) (e : Int) (huts : u.timestamp = l.timestamp)
    (hmem : l ∈ L) (hnd : (L.map (fun x => x.id)).Nodup) :
    balanceOf o p (L.map (fun b => if b = l then u else b)) e
      = balanceOf o p L e
        + (if getVirtualDate l.timestamp = e
            then logContrib o p u - logContrib o p l else 0) := by
  have hday : dayLogs (L.map (fun b => if b = l then u else b)) e
      = (dayLogs L e).map (fun b => if b = l then u else b) := by
    unfold dayLogs
    rw [List.filter_map]
    congr 1
    apply List.filter_congr
    intro b hb
    simp only [Function.comp_apply]
    by_cases hbl : b = l
    · subst hbl
      rw [if_pos rfl, huts]
    · rw [if_neg hbl]
  unfold balanceOf
  rw [hday]
  by_cases hed : getVirtualDate l.timestamp = e
  · rw [if_pos hed]
    have hmemd : l ∈ dayLogs L e := List.mem_filter.mpr ⟨hmem, by simp [hed]⟩
    have hndv : (dayLogs L e).Nodup :=
      ((List.filter_sublist L).nodup (List.Nodup.of_map _ hnd))
    have hcount : (dayLogs L e).count l = 1 := List.count_eq_one_of_mem hndv hmemd
    exact sum_map_replace (dayLogs L e) l u (logContrib o p) hcount
  · rw [if_neg hed, add_zero]
    have hid : ∀ b ∈ dayLogs L e, (if b = l then u else b) = b := by
      intro b hb
      refine if_neg (fun habs => hed ?_)
      subst habs
      simpa using (List.mem_filter.mp hb).2
    rw [List.map_congr_left hid]
    exact congrArg _ (congrArg _ (List.map_id _))

/-- The inner per-day fold keeps the correction overlay equal to the balance
drift between the current and the initial ledger. -/
theorem inner_fold_corr (o : Oracle) (p : Profile) (S0 : List LogEntry)
    (d : Int) (s : Nat) :
    ∀ (ls : List LogEntry) (st : WalkState),
    (∀ l ∈ ls, l ∈ S0 ∧ l.type = LogType.exercise
        ∧ getVirtualDate l.timestamp = d ∧ l.kcal ≠ none) →
    (ls.map (fun x => x.id)).Nodup →
    (∀ l ∈ ls, l ∈ st.logs) →
    (st.logs.map (fun x => x.id)).Nodup →
    (∀ e, st.corr e = balanceOf o p st.logs e - balanceOf o p S0 e) →
    ∀ e : Int, (ls.foldl (processLog o p (aggsOf o p S0) d s) st).corr e
        = balanceOf o p (ls.foldl (processLog o p (aggsOf o p S0) d s) st).logs e
          - balanceOf o p S0 e := by
  intro ls
  induction ls with
  | nil =>
    intro st _ _ _ hnd hcorr e
    exact hcorr e
  | cons l ls ih =>
    intro st hprops hndls hsub hnd hcorr
    rw [List.foldl_cons]
    obtain ⟨hlS0, hlty, hld, hlk⟩ := hprops l (by simp)
    have hmem : l ∈ st.logs := hsub l (by simp)
    have hndls' : (ls.map (fun x => x.id)).Nodup := (List.nodup_cons.mp hndls).2
    have hlid_not : l.id ∉ ls.map (fun x => x.id) := (List.nodup_cons.mp hndls).1
    have hlogs1 : (processLog o p (aggsOf o p S0) d s st l).logs
        = st.logs.map (fun b => if b = l then pvOf o p s l else b) :=
      processLog_logs o p (aggsOf o p S0) d s st l hmem hnd
    have hids1 : (processLog o p (aggsOf o p S0) d s st l).logs.map (fun x => x.id)
        = st.logs.map (fun x => x.id) := by
      rw [hlogs1, List.map_map]
      apply List.map_congr_left
      intro b hb
      simp only [Function.comp_apply]
      by_cases hbl : b = l
      · subst hbl
        rw [if_pos rfl, id_pvOf]
      · rw [if_neg hbl]
    have hnd1 : ((processLog o p (aggsOf o p S0) d s st l).logs.map (fun x => x.id)).Nodup := by
      rw [hids1]
      exact hnd
    have hsub1 : ∀ x ∈ ls, x ∈ (processLog o p (aggsOf o p S0) d s st l).logs := by
      intro x hx
      have hxid : x.id ≠ l.id := by
        intro habs
        exact hlid_not (habs ▸ List.mem_map_of_mem (fun y => y.id) hx)
      have hxl : x ≠ l := fun habs => hxid (congrArg (fun y => y.id) habs)
      rw [hlogs1]
      exact List.mem_map.mpr ⟨x, hsub x (by simp [hx]), by rw [if_neg hxl]⟩
    have hcorr1 : ∀ e, (processLog o p (aggsOf o p S0) d s st l).corr e
        = balanceOf o p (processLog o p (aggsOf o p S0) d s st l).logs e
          - balanceOf o p S0 e := by
      by_cases hw : writeCond o p s l = true
      · have hsome : (aggsOf o p S0 d).isSome = true := by
          have hmemd : l ∈ dayLogs S0 d := List.mem_filter.mpr ⟨hlS0, by simp [hld]⟩
          have hne2 : dayLogs S0 d ≠ [] := List.ne_nil_of_mem hmemd
          unfold aggsOf
          rw [if_neg hne2]
          rfl
        have hlogsv : (processLog o p (aggsOf o p S0) d s st l).logs
            = st.logs.map (fun b => if b = l then updatedEntry o p s l else b) := by
          unfold processLog
          rw [if_pos hw]
          exact updateLog_eq_map_self _ _ _ _ hmem hnd
        have hcorrv : (processLog o p (aggsOf o p S0) d s st l).corr
            = fun e2 => if e2 = d
                then st.corr e2 + ((credOf o p s l).kcal - l.kcal.getD 0)
                else st.corr e2 := by
          unfold processLog
          rw [if_pos hw, if_pos hsome]
        intro e
        have hbal : balanceOf o p (processLog o p (aggsOf o p S0) d s st l).logs e
            = balanceOf o p st.logs e
              + (if getVirtualDate l.timestamp = e
                  then logContrib o p (updatedEntry o p s l) - logContrib o p l else 0) := by
          rw [hlogsv]
          exact balanceOf_map_replace o p st.logs l (updatedEntry o p s l) e rfl hmem hnd
        rw [hcorrv, hbal]
        simp only []
        have hcu : logContrib o p (updatedEntry o p s l) = (credOf o p s l).kcal := rfl
        have hcl : logContrib o p l = l.kcal.getD 0 := by
          obtain ⟨k, hk⟩ := Option.ne_none_iff_exists'.mp hlk
          unfold logContrib
          rw [hk]
          rfl
        by_cases hed : e = d
        · subst hed
          rw [if_pos rfl, if_pos hld, hcorr e, hcu, hcl]
          ring
        · rw [if_neg hed, if_neg (fun habs => hed ((hld.symm.trans habs).symm)), hcorr e]
          ring
      · rw [processLog_skip o p (aggsOf o p S0) d s st l (by simpa using hw)]
        exact hcorr
    exact ih (processLog o p (aggsOf o p S0) d s st l)
      (fun x hx => hprops x (by simp [hx])) hndls' hsub1 hnd1 hcorr1

theorem type_pvOf (o : Oracle) (p : Profile) (s : Nat) (l : LogEntry) :
    (pvOf o p s l).type = l.type := by
  unfold pvOf
  by_cases hw : writeCond o p s l = true
  · rw [if_pos hw]
    rfl
  · rw [if_neg hw]

theorem exIdxOf_map (L : List LogEntry) (G : LogEntry → LogEntry) (d : Int)
    (hG : ∀ b : LogEntry, (G b).type = b.type ∧ (G b).timestamp = b.timestamp) :
    exIdxOf (L.map G) d = (exIdxOf L d).map G := by
  unfold exIdxOf
  rw [List.filter_map]
  congr 1
  apply List.filter_congr
  intro b hb
  simp only [Function.comp_apply]
  rw [(hG b).1, (hG b).2]

theorem mem_exIdxOf {L : List LogEntry} {d : Int} {l : LogEntry}
    (h : l ∈ exIdxOf L d) :
    l ∈ L ∧ l.type = LogType.exercise ∧ getVirtualDate l.timestamp = d := by
  unfold exIdxOf at h
  have h2 := List.mem_filter.mp h
  refine ⟨h2.1, ?_, ?_⟩
  · have := h2.2
    simp at this
    exact this.1
  · have := h2.2
    simp at this
    exact this.2

theorem mem_dayLogs_of_exIdxOf {L : List LogEntry} {d : Int} {l : LogEntry}
    (h : l ∈ exIdxOf L d) : l ∈ dayLogs L d := by
  obtain ⟨h1, h2, h3⟩ := mem_exIdxOf h
  exact List.mem_filter.mpr ⟨h1, by simp [h3]⟩

/-- One full `walkStep` preserves the walk invariants, touches only its own
day's bucket, and leaves that day settled. -/
theorem walkStep_spec (o : Oracle) (p : Profile) (S0 : List LogEntry)
    (checkM : Int → Option Bool) (firstDay : Int)
    (Hids : (S0.map (fun x => x.id)).Nodup)
    (Hkcal : ∀ l ∈ S0, l.type = LogType.exercise → l.kcal ≠ none)
    (d : Int) (st : WalkState)
    (hf : S0.map eraseDerived = st.logs.map eraseDerived)
    (hcorr : ∀ e, st.corr e = balanceOf o p st.logs e - balanceOf o p S0 e)
    (hday : dayLogs st.logs d = dayLogs S0 d) :
    (S0.map eraseDerived
        = (walkStep o p (aggsOf o p S0) checkM firstDay (exIdxOf S0) st d).logs.map eraseDerived)
      ∧ (∀ e, (walkStep o p (aggsOf o p S0) checkM firstDay (exIdxOf S0) st d).corr e
          = balanceOf o p (walkStep o p (aggsOf o p S0) checkM firstDay (exIdxOf S0) st d).logs e
            - balanceOf o p S0 e)
      ∧ (∀ e, e ≠ d →
          dayLogs (walkStep o p (aggsOf o p S0) checkM firstDay (exIdxOf S0) st d).logs e
            = dayLogs st.logs e)
      ∧ settledFor o p checkM firstDay
          (walkStep o p (aggsOf o p S0) checkM firstDay (exIdxOf S0) st d).logs d := by
  have hidseq : S0.map (fun x => x.id) = st.logs.map (fun x => x.id) :=
    map_factor (fun x => x.id) (fun l => rfl) hf
  have hndS : (st.logs.map (fun x => x.id)).Nodup := by
    rw [← hidseq]
    exact Hids
  have hndls : ((exIdxOf S0 d).map (fun x => x.id)).Nodup :=
    (((List.filter_sublist S0).map (fun x => x.id)).nodup Hids)
  have hsubls : ∀ l ∈ exIdxOf S0 d, l ∈ st.logs := by
    intro l hl
    have h1 : l ∈ dayLogs S0 d := mem_dayLogs_of_exIdxOf hl
    rw [← hday] at h1
    exact (List.mem_filter.mp h1).1
  have hprops : ∀ l ∈ exIdxOf S0 d, l ∈ S0 ∧ l.type = LogType.exercise
      ∧ getVirtualDate l.timestamp = d ∧ l.kcal ≠ none := by
    intro l hl
    obtain ⟨h1, h2, h3⟩ := mem_exIdxOf hl
    exact ⟨h1, h2, h3, Hkcal l h1 h2⟩
  show _ ∧ _ ∧ _ ∧ _
  have hs : walkStep o p (aggsOf o p S0) checkM firstDay (exIdxOf S0) st d
      = (exIdxOf S0 d).foldl
          (processLog o p (aggsOf o p S0) d
            (streakLen o.qualifies (effAgg (aggsOf o p S0) st.corr) checkM firstDay d)) st := rfl
  rw [hs]
  set s := streakLen o.qualifies (effAgg (aggsOf o p S0) st.corr) checkM firstDay d with hsdef
  have hlogs := inner_fold_logs o p (aggsOf o p S0) d s (exIdxOf S0 d) st hndls hsubls hndS
  have hcorr2 := inner_fold_corr o p S0 d s (exIdxOf S0 d) st hprops hndls hsubls hndS hcorr
  have hG : ∀ b : LogEntry,
      ((if b ∈ exIdxOf S0 d then pvOf o p s b else b).type = b.type
        ∧ (if b ∈ exIdxOf S0 d then pvOf o p s b else b).timestamp = b.timestamp) := by
    intro b
    refine ⟨?_, ?_⟩
    · by_cases hb : b ∈ exIdxOf S0 d
      · rw [if_pos hb]
        exact type_pvOf o p s b
      · rw [if_neg hb]
    · by_cases hb : b ∈ exIdxOf S0 d
      · rw [if_pos hb]
        exact timestamp_pvOf o p s b
      · rw [if_neg hb]
  have hframe : ∀ e : Int, e ≠ d →
      dayLogs ((exIdxOf S0 d).foldl (processLog o p (aggsOf o p S0) d s) st).logs e
        = dayLogs st.logs e := by
    intro e he
    rw [hlogs]
    exact dayLogs_map_untouched o p s (exIdxOf S0 d) st.logs d e
      (fun l hl => (mem_exIdxOf hl).2.2) he
  refine ⟨?_, hcorr2, hframe, ?_⟩
  · rw [hlogs, List.map_map]
    have : ∀ b ∈ st.logs,
        ((eraseDerived ∘ fun b => if b ∈ exIdxOf S0 d then pvOf o p s b else b) b)
          = eraseDerived b := by
      intro b hb
      simp only [Function.comp_apply]
      by_cases hbls : b ∈ exIdxOf S0 d
      · rw [if_pos hbls, eraseDerived_pvOf]
      · rw [if_neg hbls]
    rw [List.map_congr_left this]
    exact hf
  · -- settledness of day d in the resulting ledger
    intro x hx
    -- the streak recomputed from the result equals the streak used
    have hstreak : streakLen o.qualifies
        (aggsOf o p ((exIdxOf S0 d).foldl (processLog o p (aggsOf o p S0) d s) st).logs)
        checkM firstDay d = s := by
      have h1 : streakLen o.qualifies
          (aggsOf o p ((exIdxOf S0 d).foldl (processLog o p (aggsOf o p S0) d s) st).logs)
          checkM firstDay d
          = streakLen o.qualifies (aggsOf o p st.logs) checkM firstDay d :=
        streakLen_congr _ _ _ _ _ _
          (fun e he => aggsOf_congr o p e (hframe e (by omega)))
      have h2 : streakLen o.qualifies (aggsOf o p st.logs) checkM firstDay d = s := by
        rw [hsdef]
        exact streakLen_congr _ _ _ _ _ _
          (fun e he => (effAgg_aggsOf o p st.corr hf hcorr e).symm)
      rw [h1, h2]
    rw [hstreak]
    -- every day-d exercise row of the result is a processed value
    have hWex : exIdxOf ((exIdxOf S0 d).foldl (processLog o p (aggsOf o p S0) d s) st).logs d
        = (exIdxOf S0 d).map (fun b => pvOf o p s b) := by
      rw [hlogs, exIdxOf_map st.logs _ d hG, exIdxOf_congr d hday]
      apply List.map_congr_left
      intro b hb
      rw [if_pos hb]
    rw [hWex] at hx
    obtain ⟨b, hb, rfl⟩ := List.mem_map.mp hx
    exact writeCond_pvOf o p s b

/-- Settledness of a day depends only on the buckets at and before the day. -/
theorem settledFor_congr (o : Oracle) (p : Profile) (checkM : Int → Option Bool)
    (firstDay : Int) {L1 L2 : List LogEntry} (d : Int)
    (hlt : ∀ e : Int, e < d → dayLogs L1 e = dayLogs L2 e)
    (hd : dayLogs L1 d = dayLogs L2 d)
    (h : settledFor o p checkM firstDay L1 d) : settledFor o p checkM firstDay L2 d := by
  intro x hx
  have hstreak : streakLen o.qualifies (aggsOf o p L2) checkM firstDay d
      = streakLen o.qualifies (aggsOf o p L1) checkM firstDay d :=
    streakLen_congr _ _ _ _ _ _ (fun e he => (aggsOf_congr o p e (hlt e he)).symm)
  rw [hstreak]
  rw [← exIdxOf_congr d hd] at hx
  exact h x hx

/-- The whole forward walk over a strictly increasing day list: the ledger
keeps its `eraseDerived` image, the correction overlay tracks the balance
drift, days outside the list keep their buckets, and every walked day ends
settled. -/
theorem runWalk_spec (o : Oracle) (p : Profile) (S0 : List LogEntry)
    (checkM : Int → Option Bool) (firstDay : Int)
    (Hids : (S0.map (fun x => x.id)).Nodup)
    (Hkcal : ∀ l ∈ S0, l.type = LogType.exercise → l.kcal ≠ none) :
    ∀ (days : List Int), days.Pairwise (· < ·) →
    ∀ (st : WalkState),
    (S0.map eraseDerived = st.logs.map eraseDerived) →
    (∀ e, st.corr e = balanceOf o p st.logs e - balanceOf o p S0 e) →
    (∀ d ∈ days, dayLogs st.logs d = dayLogs S0 d) →
    (S0.map eraseDerived
        = (days.foldl (walkStep o p (aggsOf o p S0) checkM firstDay (exIdxOf S0)) st).logs.map eraseDerived)
      ∧ (∀ e, (days.foldl (walkStep o p (aggsOf o p S0) checkM firstDay (exIdxOf S0)) st).corr e
          = balanceOf o p (days.foldl (walkStep o p (aggsOf o p S0) checkM firstDay (exIdxOf S0)) st).logs e
            - balanceOf o p S0 e)
      ∧ (∀ e : Int, e ∉ days →
          dayLogs (days.foldl (walkStep o p (aggsOf o p S0) checkM firstDay (exIdxOf S0)) st).logs e
            = dayLogs st.logs e)
      ∧ (∀ d ∈ days, settledFor o p checkM firstDay
          (days.foldl (walkStep o p (aggsOf o p S0) checkM firstDay (exIdxOf S0)) st).logs d) := by
  intro days
  induction days with
  | nil =>
    intro _ st hf hcorr _
    exact ⟨hf, hcorr, fun e _ => rfl, fun d hd => absurd hd (by simp)⟩
  | cons d rest ih =>
    intro hpw st hf hcorr hdays
    have hd_lt : ∀ b ∈ rest, d < b := (List.pairwise_cons.mp hpw).1
    have hpw' : rest.Pairwise (· < ·) := (List.pairwise_cons.mp hpw).2
    obtain ⟨wA, wB, wC, wD⟩ := walkStep_spec o p S0 checkM firstDay Hids Hkcal d st
      hf hcorr (hdays d (by simp))
    rw [List.foldl_cons]
    set st1 := walkStep o p (aggsOf o p S0) checkM firstDay (exIdxOf S0) st d with hst1
    have hdays' : ∀ d2 ∈ rest, dayLogs st1.logs d2 = dayLogs S0 d2 := by
      intro d2 hd2
      have hne : d2 ≠ d := by
        have := hd_lt d2 hd2
        omega
      rw [wC d2 hne]
      exact hdays d2 (by simp [hd2])
    obtain ⟨iA, iB, iC, iD⟩ := ih hpw' st1 wA wB hdays'
    refine ⟨iA, iB, ?_, ?_⟩
    · intro e he
      have he_rest : e ∉ rest := fun h2 => he (by simp [h2])
      have he_d : e ≠ d := fun h2 => he (by simp [h2])
      rw [iC e he_rest, wC e he_d]
    · intro d2 hd2
      rcases List.mem_cons.mp hd2 with heq | hmem
      · subst heq
        have hd_not : d2 ∉ rest := fun h2 => by
          have := hd_lt d2 h2
          omega
      -- transfer the fresh settledness of d2 across the walk of the later days
        refine settledFor_congr o p checkM firstDay d2 ?_ ?_ wD
        · intro e he
          have : e ∉ rest := fun h2 => by
            have := hd_lt e h2
            omega
          exact (iC e this).symm
        · exact (iC d2 hd_not).symm
      · exact iD d2 hmem

/-- A walk over a ledger all of whose walked days are settled is a complete
no-op: no row is touched, no write is counted. -/
theorem runWalk_noop (o : Oracle) (p : Profile) (L : List LogEntry)
    (checkM : Int → Option Bool) (firstDay : Int) :
    ∀ (days : List Int),
    (∀ d ∈ days, settledFor o p checkM firstDay L d) →
    days.foldl (walkStep o p (aggsOf o p L) checkM firstDay (exIdxOf L))
        ⟨L, fun _ => 0, 0⟩
      = ⟨L, fun _ => 0, 0⟩ := by
  intro days
  induction days with
  | nil => intro _; rfl
  | cons d rest ih =>
    intro hset
    rw [List.foldl_cons]
    have hseq : streakLen o.qualifies (effAgg (aggsOf o p L) (fun _ => 0)) checkM firstDay d
        = streakLen o.qualifies (aggsOf o p L) checkM firstDay d :=
      streakLen_congr _ _ _ _ _ _ (fun e _ => effAgg_zero _ e)
    have hstep : walkStep o p (aggsOf o p L) checkM firstDay (exIdxOf L)
        ⟨L, fun _ => 0, 0⟩ d = ⟨L, fun _ => 0, 0⟩ := by
      show (exIdxOf L d).foldl _ _ = _
      apply foldl_processLog_skip
      intro l hl
      rw [hseq]
      exact hset d (by simp) l hl
    rw [hstep]
    exact ih (fun d2 h2 => hset d2 (by simp [h2]))

/-- Refreshing an archive twice against the same ledger is the same as
refreshing it once. -/
theorem refreshOne_idem (now t : Int) (L : List LogEntry) (a : PeriodArchive) :
    refreshOne now t L (refreshOne now t L a) = refreshOne now t L a := by
  unfold refreshOne
  by_cases hc : t ≤ a.endDate
  · rw [if_pos hc, if_pos hc]
  · rw [if_neg hc, if_neg hc]

/-- `recalcImpactedHistory` written out through its forward-walk fold. -/
theorem recalc_unfold (o : Oracle) (p : Profile) (now : Int) (st : DB) (t : Int) :
    recalcImpactedHistory o p now st t
      = { db :=
            { logs := ((walkDays (getVirtualDate t) (calendarDay now)).foldl (walkStep o p (aggsOf o p st.logs) (checkMapAt st.checks) (anchorDay now st.logs st.checks) (exIdxOf st.logs)) ⟨st.logs, fun _ => 0, 0⟩).logs
            , checks := st.checks
            , archives := st.archives.map (refreshOne now t ((walkDays (getVirtualDate t) (calendarDay now)).foldl (walkStep o p (aggsOf o p st.logs) (checkMapAt st.checks) (anchorDay now st.logs st.checks) (exIdxOf st.logs)) ⟨st.logs, fun _ => 0, 0⟩).logs) }
        , logWrites := ((walkDays (getVirtualDate t) (calendarDay now)).foldl (walkStep o p (aggsOf o p st.logs) (checkMapAt st.checks) (anchorDay now st.logs st.checks) (exIdxOf st.logs)) ⟨st.logs, fun _ => 0, 0⟩).writes
        , archiveWrites := (st.archives.filter (fun a => decide (t ≤ a.endDate))).length } :=
  rfl

theorem walkDays_pairwise (s e : Int) : (walkDays s e).Pairwise (· < ·) := by
  unfold walkDays
  refine List.Pairwise.map _ ?_ (List.pairwise_lt_range _)
  intro a b hab
  exact Int.add_lt_add_left (Int.ofNat_lt.mpr hab) s

/-! ## C1 — idempotence of `recalculate` -/

/-- C1 (counterexample to the claim as stated): even on an untouched ledger,
the second consecutive run still unconditionally re-persists every archive
whose `endDate` is at or after the changed timestamp (`db.period_archives.update`
runs for each of them, rewriting `updatedAt`), so the second call does not
produce zero writes. -/
theorem recalc_second_run_archive_write_cx :
    (recalcImpactedHistory oW pW 0
        (recalcImpactedHistory oW pW 0
          { logs := [], checks := [], archives := [archW] } 0).db 0).archiveWrites
      ≠ 0 := by
  decide

/-- C1 (amended): with no intervening mutation and the same "now", the second
`recalculate(t)` performs zero log writes and leaves the whole database —
ledger, checks and refreshed archives — unchanged; however the archive
refresh itself is re-persisted unconditionally for every archive with
`endDate ≥ t` (see the counterexample), so only the log-update count is zero,
not the total write count.  (Requires the table invariants that primary keys
are unique and exercise rows carry a stored kcal.) -/
theorem recalc_idempotent (o : Oracle) (p : Profile) (now t : Int) (db : DB)
    (Hids : (db.logs.map (fun x => x.id)).Nodup)
    (Hkcal : ∀ l ∈ db.logs, l.type = LogType.exercise → l.kcal ≠ none) :
    (recalcImpactedHistory o p now (recalcImpactedHistory o p now db t).db t).db
        = (recalcImpactedHistory o p now db t).db
      ∧ (recalcImpactedHistory o p now (recalcImpactedHistory o p now db t).db t).logWrites
        = 0 := by
  have hpw : (walkDays (getVirtualDate t) (calendarDay now)).Pairwise (· < ·) :=
    walkDays_pairwise _ _
  obtain ⟨A1, B1, C1, D1⟩ := runWalk_spec o p db.logs (checkMapAt db.checks)
    (anchorDay now db.logs db.checks) Hids Hkcal
    (walkDays (getVirtualDate t) (calendarDay now)) hpw
    ⟨db.logs, fun _ => 0, 0⟩ rfl (fun e => (sub_self _).symm) (fun d _ => rfl)
  set W1 := (walkDays (getVirtualDate t) (calendarDay now)).foldl
    (walkStep o p (aggsOf o p db.logs) (checkMapAt db.checks)
      (anchorDay now db.logs db.checks) (exIdxOf db.logs))
    ⟨db.logs, fun _ => 0, 0⟩ with hW1
  have hts : W1.logs.map (fun x => x.timestamp) = db.logs.map (fun x => x.timestamp) :=
    (map_factor (fun x => x.timestamp) (fun l => rfl) A1).symm
  have hanchor : anchorDay now W1.logs db.checks = anchorDay now db.logs db.checks := by
    unfold anchorDay
    rw [hts]
  have hset : ∀ d ∈ walkDays (getVirtualDate t) (calendarDay now),
      settledFor o p (checkMapAt db.checks) (anchorDay now W1.logs db.checks) W1.logs d := by
    rw [hanchor]
    exact D1
  have hnoop : (walkDays (getVirtualDate t) (calendarDay now)).foldl
      (walkStep o p (aggsOf o p W1.logs) (checkMapAt db.checks)
        (anchorDay now W1.logs db.checks) (exIdxOf W1.logs))
      ⟨W1.logs, fun _ => 0, 0⟩ = ⟨W1.logs, fun _ => 0, 0⟩ :=
    runWalk_noop o p W1.logs _ _ _ hset
  constructor
  · rw [recalc_unfold o p now db t]
    rw [recalc_unfold o p now _ t]
    simp only []
    rw [hnoop]
    simp only []
    rw [List.map_map]
    congr 1
    apply List.map_congr_left
    intro a _
    simp only [Function.comp_apply]
    exact refreshOne_idem now t W1.logs a
  · rw [recalc_unfold o p now db t]
    rw [recalc_unfold o p now _ t]
    simp only []
    rw [hnoop]

/-- C1 (witness for the amendment): a two-row ledger with unique ids and
stored exercise kcal. -/
theorem recalc_idempotent_witness :
    ((dbW.logs.map (fun x => x.id)).Nodup
        ∧ (∀ l ∈ dbW.logs, l.type = LogType.exercise → l.kcal ≠ none))
      ∧ ((recalcImpactedHistory oW pW 0 (recalcImpactedHistory oW pW 0 dbW 0).db 0).db
            = (recalcImpactedHistory oW pW 0 dbW 0).db
          ∧ (recalcImpactedHistory oW pW 0
              (recalcImpactedHistory oW pW 0 dbW 0).db 0).logWrites = 0) :=
  ⟨⟨by decide, by decide⟩, recalc_idempotent oW pW 0 0 dbW (by decide) (by decide)⟩

/-! ## Frame properties of the walk (C3, C9) -/

/-- The pointwise relation between a ledger row before and after a walk:
only the engine-owned fields may change, and a BEER row may not change at
all. -/
def frameRel (a b : LogEntry) : Prop :=
  eraseDerived a = eraseDerived b ∧ (a.type = LogType.beer → b = a)

theorem frameRel_refl (a : LogEntry) : frameRel a a := ⟨rfl, fun _ => rfl⟩

theorem frameRel_trans {a b c : LogEntry} (h1 : frameRel a b) (h2 : frameRel b c) :
    frameRel a c := by
  refine ⟨h1.1.trans h2.1, fun hbeer => ?_⟩
  have hb : b = a := h1.2 hbeer
  have : b.type = LogType.beer := by rw [hb, hbeer]
  rw [← hb]
  exact h2.2 this

theorem forall₂_frameRel_trans :
    ∀ {l1 l2 l3 : List LogEntry}, List.Forall₂ frameRel l1 l2 →
      List.Forall₂ frameRel l2 l3 → List.Forall₂ frameRel l1 l3 := by
  intro l1
  induction l1 with
  | nil =>
    intro l2 l3 h1 h2
    cases h1
    cases h2
    exact List.Forall₂.nil
  | cons a l1 ih =>
    intro l2 l3 h1 h2
    cases h1 with
    | cons hab h1tail =>
      cases h2 with
      | cons hbc h2tail =>
        exact List.Forall₂.cons (frameRel_trans hab hbc) (ih h1tail h2tail)

/-- The walk over any strictly increasing day list touches only the walked
days' buckets, and within them only the derived fields of exercise rows. -/
theorem runWalk_frame (o : Oracle) (p : Profile) (S0 : List LogEntry)
    (checkM : Int → Option Bool) (firstDay : Int)
    (Hids : (S0.map (fun x => x.id)).Nodup) :
    ∀ (days : List Int), days.Pairwise (· < ·) →
    ∀ (st : WalkState),
    (S0.map eraseDerived = st.logs.map eraseDerived) →
    (∀ d ∈ days, dayLogs st.logs d = dayLogs S0 d) →
    (S0.map eraseDerived
        = (days.foldl (walkStep o p (aggsOf o p S0) checkM firstDay (exIdxOf S0)) st).logs.map eraseDerived)
      ∧ (∀ e : Int, e ∉ days →
          dayLogs (days.foldl (walkStep o p (aggsOf o p S0) checkM firstDay (exIdxOf S0)) st).logs e
            = dayLogs st.logs e)
      ∧ List.Forall₂ frameRel st.logs
          (days.foldl (walkStep o p (aggsOf o p S0) checkM firstDay (exIdxOf S0)) st).logs := by
  intro days
  induction days with
  | nil =>
    intro _ st hf _
    exact ⟨hf, fun e _ => rfl, List.forall₂_same.mpr (fun x _ => frameRel_refl x)⟩
  | cons d rest ih =>
    intro hpw st hf hdays
    have hd_lt : ∀ b ∈ rest, d < b := (List.pairwise_cons.mp hpw).1
    have hpw' : rest.Pairwise (· < ·) := (List.pairwise_cons.mp hpw).2
    rw [List.foldl_cons]
    have hidseq : S0.map (fun x => x.id) = st.logs.map (fun x => x.id) :=
      map_factor (fun x => x.id) (fun l => rfl) hf
    have hndS : (st.logs.map (fun x => x.id)).Nodup := by
      rw [← hidseq]
      exact Hids
    have hndls : ((exIdxOf S0 d).map (fun x => x.id)).Nodup :=
      ((List.filter_sublist S0).map (fun x => x.id)).nodup Hids
    have hsubls : ∀ l ∈ exIdxOf S0 d, l ∈ st.logs := by
      intro l hl
      have h1 : l ∈ dayLogs S0 d := mem_dayLogs_of_exIdxOf hl
      rw [← hdays d (by simp)] at h1
      exact (List.mem_filter.mp h1).1
    have hws : walkStep o p (aggsOf o p S0) checkM firstDay (exIdxOf S0) st d
        = (exIdxOf S0 d).foldl
            (processLog o p (aggsOf o p S0) d
              (streakLen o.qualifies (effAgg (aggsOf o p S0) st.corr) checkM firstDay d)) st :=
      rfl
    set s := streakLen o.qualifies (effAgg (aggsOf o p S0) st.corr) checkM firstDay d with hsdef
    have hlogs1 : (walkStep o p (aggsOf o p S0) checkM firstDay (exIdxOf S0) st d).logs
        = st.logs.map (fun b => if b ∈ exIdxOf S0 d then pvOf o p s b else b) := by
      rw [hws]
      exact inner_fold_logs o p (aggsOf o p S0) d s (exIdxOf S0 d) st hndls hsubls hndS
    set st1 := walkStep o p (aggsOf o p S0) checkM firstDay (exIdxOf S0) st d with hst1
    have hf1 : S0.map eraseDerived = st1.logs.map eraseDerived := by
      rw [hlogs1, List.map_map]
      have h2 : ∀ b ∈ st.logs,
          ((eraseDerived ∘ fun b => if b ∈ exIdxOf S0 d then pvOf o p s b else b) b)
            = eraseDerived b := by
        intro b hb
        simp only [Function.comp_apply]
        by_cases hbls : b ∈ exIdxOf S0 d
        · rw [if_pos hbls, eraseDerived_pvOf]
        · rw [if_neg hbls]
      rw [List.map_congr_left h2]
      exact hf
    have hframe1 : ∀ e : Int, e ≠ d → dayLogs st1.logs e = dayLogs st.logs e := by
      intro e he
      rw [hlogs1]
      exact dayLogs_map_untouched o p s (exIdxOf S0 d) st.logs d e
        (fun l hl => (mem_exIdxOf hl).2.2) he
    have hrel1 : List.Forall₂ frameRel st.logs st1.logs := by
      rw [hlogs1]
      rw [List.forall₂_map_right_iff]
      refine List.forall₂_same.mpr (fun b hb => ?_)
      by_cases hbls : b ∈ exIdxOf S0 d
      · rw [if_pos hbls]
        refine ⟨(eraseDerived_pvOf o p s b).symm, fun hbeer => ?_⟩
        have hex : b.type = LogType.exercise := (mem_exIdxOf hbls).2.1
        rw [hbeer] at hex
        cases hex
      · rw [if_neg hbls]
        exact frameRel_refl b
    have hdays1 : ∀ d2 ∈ rest, dayLogs st1.logs d2 = dayLogs S0 d2 := by
      intro d2 hd2
      have hne : d2 ≠ d := by
        have := hd_lt d2 hd2
        omega
      rw [hframe1 d2 hne]
      exact hdays d2 (by simp [hd2])
    obtain ⟨iA, iB, iC⟩ := ih hpw' st1 hf1 hdays1
    refine ⟨iA, ?_, forall₂_frameRel_trans hrel1 iC⟩
    intro e he
    have he_rest : e ∉ rest := fun h2 => he (by simp [h2])
    have he_d : e ≠ d := fun h2 => he (by simp [h2])
    rw [iB e he_rest, hframe1 e he_d]

/-- C3: a recalculation triggered at `t` (virtual day `D`) modifies no check
record, leaves every virtual-day bucket strictly before `D` exactly as it
was, and rewrites no archive whose `endDate` is strictly before `t`.
(Requires unique primary keys.) -/
theorem recalc_forward_only (o : Oracle) (p : Profile) (now t : Int) (db : DB)
    (Hids : (db.logs.map (fun x => x.id)).Nodup) :
    (recalcImpactedHistory o p now db t).db.checks = db.checks
      ∧ (∀ e : Int, e < getVirtualDate t →
          dayLogs (recalcImpactedHistory o p now db t).db.logs e = dayLogs db.logs e)
      ∧ List.Forall₂ (fun a b => a.endDate < t → b = a) db.archives
          (recalcImpactedHistory o p now db t).db.archives := by
  obtain ⟨A, B, C⟩ := runWalk_frame o p db.logs (checkMapAt db.checks)
    (anchorDay now db.logs db.checks) Hids
    (walkDays (getVirtualDate t) (calendarDay now)) (walkDays_pairwise _ _)
    ⟨db.logs, fun _ => 0, 0⟩ rfl (fun d _ => rfl)
  refine ⟨rfl, ?_, ?_⟩
  · intro e he
    have hnotin : e ∉ walkDays (getVirtualDate t) (calendarDay now) := by
      intro hmem
      unfold walkDays at hmem
      obtain ⟨k, hk, hke⟩ := List.mem_map.mp hmem
      have hk0 : (0 : Int) ≤ Int.ofNat k := Int.ofNat_nonneg k
      omega
    exact B e hnotin
  · have harch : (recalcImpactedHistory o p now db t).db.archives
        = db.archives.map (refreshOne now t
            ((walkDays (getVirtualDate t) (calendarDay now)).foldl
              (walkStep o p (aggsOf o p db.logs) (checkMapAt db.checks)
                (anchorDay now db.logs db.checks) (exIdxOf db.logs))
              ⟨db.logs, fun _ => 0, 0⟩).logs) := rfl
    rw [harch, List.forall₂_map_right_iff]
    refine List.forall₂_same.mpr (fun a ha => ?_)
    intro hlt
    unfold refreshOne
    rw [if_neg (by omega)]

/-- C3 (witness): the fixture database. -/
theorem recalc_forward_only_witness :
    ((dbW.logs.map (fun x => x.id)).Nodup)
      ∧ ((recalcImpactedHistory oW pW 0 dbW 0).db.checks = dbW.checks
          ∧ (∀ e : Int, e < getVirtualDate 0 →
              dayLogs (recalcImpactedHistory oW pW 0 dbW 0).db.logs e = dayLogs dbW.logs e)
          ∧ List.Forall₂ (fun a b => a.endDate < 0 → b = a) dbW.archives
              (recalcImpactedHistory oW pW 0 dbW 0).db.archives) :=
  ⟨by decide, recalc_forward_only oW pW 0 0 dbW (by decide)⟩

/-- C9: the walk never creates or deletes a ledger row; every row keeps all
its fields except possibly `kcal` and `memo`, and a BEER row (whose kcal is
manually authoritative) is never modified at all.  (Requires unique primary
keys.) -/
theorem recalc_rewrites_only_exercise (o : Oracle) (p : Profile) (now t : Int)
    (db : DB) (Hids : (db.logs.map (fun x => x.id)).Nodup) :
    List.Forall₂ frameRel db.logs (recalcImpactedHistory o p now db t).db.logs
      ∧ (recalcImpactedHistory o p now db t).db.logs.length = db.logs.length := by
  obtain ⟨A, B, C⟩ := runWalk_frame o p db.logs (checkMapAt db.checks)
    (anchorDay now db.logs db.checks) Hids
    (walkDays (getVirtualDate t) (calendarDay now)) (walkDays_pairwise _ _)
    ⟨db.logs, fun _ => 0, 0⟩ rfl (fun d _ => rfl)
  exact ⟨C, (List.Forall₂.length_eq C).symm⟩

/-- C9 (witness): the fixture database with one beer and one exercise row. -/
theorem recalc_rewrites_only_exercise_witness :
    ((dbW.logs.map (fun x => x.id)).Nodup)
      ∧ (List.Forall₂ frameRel dbW.logs (recalcImpactedHistory oW pW 0 dbW 0).db.logs
          ∧ (recalcImpactedHistory oW pW 0 dbW 0).db.logs.length = dbW.logs.length) :=
  ⟨by decide, recalc_rewrites_only_exercise oW pW 0 0 dbW (by decide)⟩

end Nomutore
